import Mathlib

/-!
ring-lrc: video renderer registry and fallback person collection.

Shallow embedding of `src/videomodel.cpp` and `src/fallbackpersoncollection.cpp`.

Conventions of the embedding.
* A C++ object pointer is a `Ptr`: `none` is `nullptr`, `some a` is the address `a`.
* Heap objects live in association lists from addresses to records; `delete` removes the
  record, and dereferencing an address with no record (or `nullptr`) is undefined behaviour,
  which the embedding reports as `none` in the `Option` result of the operation.
* `new` hands out the address `next` and increments it.
* A `QHash<QString,T*>` is an association list; the non-const `operator[]` inserts a
  default-constructed (`nullptr`) entry when the key is absent, as Qt does.
* Emitted Qt signals and calls made to the daemon are appended to logs in the state.
-/

namespace RingLrc

/-! ## Pointers, heaps and `QHash` -/

/-- A C++ object pointer: `none` is `nullptr`. -/
abbrev Ptr := Option Nat

/-- Live heap objects of one class, by address. -/
abbrev Heap (α : Type) := List (Nat × α)

/-- Dereference of an address: the object, or `none` when no live object is there. -/
def Heap.deref {α : Type} (h : Heap α) (a : Nat) : Option α :=
  match h with
  | [] => none
  | (b, v) :: rest => if b = a then some v else Heap.deref rest a

/-- The C++ `delete` expression on a non-null address: the object is no longer live. -/
def Heap.free {α : Type} (h : Heap α) (a : Nat) : Heap α :=
  h.filter (fun e => decide (e.1 ≠ a))

/-- Store of an object at an address (construction by `new`, or mutation through a pointer). -/
def Heap.store {α : Type} (h : Heap α) (a : Nat) (v : α) : Heap α :=
  (a, v) :: Heap.free h a

/-- `QHash<QString,T*>`: entries in the container's iteration order. -/
abbrev QHash := List (String × Ptr)

/-- `QHash::contains(key)`. -/
def QHash.contains (h : QHash) (k : String) : Bool :=
  match h with
  | [] => false
  | (k', _) :: rest => if k' = k then true else QHash.contains rest k

/-- `QHash::value(key)`, which is also the const `operator[]`: the value stored under the
key, or a default-constructed value (`nullptr`) when the key is absent. -/
def QHash.value (h : QHash) (k : String) : Ptr :=
  match h with
  | [] => none
  | (k', v) :: rest => if k' = k then v else QHash.value rest k

/-- Read through the non-const `operator[]`: when the key is absent a default-constructed
(`nullptr`) entry is inserted first. Returns the container after the read and the value. -/
def QHash.index (h : QHash) (k : String) : QHash × Ptr :=
  if QHash.contains h k then (h, QHash.value h k) else (h ++ [(k, none)], none)

/-- Assignment `h[k] = v` through the non-const `operator[]`. -/
def QHash.set (h : QHash) (k : String) (v : Ptr) : QHash :=
  if QHash.contains h k then h.map (fun e => if e.1 = k then (k, v) else e)
  else h ++ [(k, v)]

/-- `QHash::values()`. -/
def QHash.values (h : QHash) : List Ptr := h.map (fun e => e.2)

/-- `QHash::keys()`. -/
def QHash.keys (h : QHash) : List String := h.map (fun e => e.1)

/-- `QHash::size()`. -/
def QHash.size (h : QHash) : Nat := h.length

/-- `QHash::key(value)`: the first key mapped to the value, or a default-constructed key
(the empty string) when no entry has that value. -/
def QHash.key (h : QHash) (v : Ptr) : String :=
  match h with
  | [] => ""
  | (k, v') :: rest => if v' = v then k else QHash.key rest v

/-! ## Video renderer registry (`videomodel.cpp`) -/

/-- A `Resolution` object, by the value it holds. -/
structure Resolution where
  width : Int
  height : Int
deriving DecidableEq, Repr

/-- Modelled from the spec: the `VideoRenderer` class is not part of the source slice; the
record keeps what its constructor `VideoRenderer(id, shmPath, res)` and the calls
`setShmPath`, `setResolution`, `moveToThread`, `startRendering`, `stopRendering` are given. -/
structure VideoRenderer where
  id : String
  shmPath : String
  res : Resolution
  movedToThread : Bool
  rendering : Bool
deriving DecidableEq, Repr

/-- Modelled from the spec: the `VideoDevice` class is not part of the source slice; the
record keeps the name given to its constructor `VideoDevice(deviceName)`, which `id()`
returns. -/
structure VideoDevice where
  id : String
deriving DecidableEq, Repr

/-- Qt signals emitted by the registry and by its devices. -/
inductive Signal where
  | renderingStarted (dev : Nat) (r : Ptr)
  | renderingStopped (dev : Nat) (r : Ptr)
  | videoCallInitiated (r : Ptr)
  | previewStateChanged (b : Bool)
  | previewStarted (r : Ptr)
  | previewStopped (r : Ptr)
deriving DecidableEq, Repr

/-- Methods invoked on the daemon's `VideoManagerInterface` that change the camera. -/
inductive DaemonCall where
  | startCamera
  | stopCamera
deriving DecidableEq, Repr

/-- What the external collaborators answer during one operation. -/
structure Env where
  /-- `VideoDeviceModel::instance()->activeDevice()`, given by the value of its
  `->activeChannel()->activeResolution()`; `none` when there is no active device. -/
  vdmActive : Option Resolution
  /-- `interface.getActiveDevice()`. -/
  activeDeviceId : String
  /-- `interface.getDeviceList()`. -/
  deviceList : List String
  /-- `dev->activeChannel()->activeResolution()` of the device with the given name. -/
  deviceResolution : String → Resolution

/-- State of the `VideoModel` singleton together with the heap it owns and the logs. -/
structure VideoModel where
  m_PreviewState : Bool
  m_lRenderers : QHash
  m_hDevices : QHash
  m_pActiveDevice : Ptr
  /-- Live `VideoRenderer` objects. -/
  renderers : Heap VideoRenderer
  /-- Live `VideoDevice` objects. -/
  videoDevices : Heap VideoDevice
  /-- Next address handed out by `new`. -/
  next : Nat
  /-- `QThread::isRunning()` of the registry's worker thread. -/
  running : Bool
  /-- Signals emitted so far, oldest first. -/
  emitted : List Signal
  /-- Camera calls made to the daemon so far, oldest first. -/
  daemonCalls : List DaemonCall
deriving DecidableEq, Repr

/-- The registry right after `VideoModel::VideoModel()`. -/
def VideoModel.init : VideoModel :=
  { m_PreviewState := false, m_lRenderers := [], m_hDevices := [], m_pActiveDevice := none,
    renderers := [], videoDevices := [], next := 0, running := false, emitted := [],
    daemonCalls := [] }

/-- `VideoModel::getRenderer(const Call*)` for a non-null call with the given id: a const
lookup, which does not insert. -/
def VideoModel.getRenderer (m : VideoModel) (callId : String) : Ptr :=
  QHash.value m.m_lRenderers callId

/-- `VideoModel::stopPreview()`. -/
def VideoModel.stopPreview (m : VideoModel) : VideoModel :=
  { m with daemonCalls := m.daemonCalls ++ [DaemonCall.stopCamera], m_PreviewState := false }

/-- `VideoModel::startPreview()`. -/
def VideoModel.startPreview (m : VideoModel) : VideoModel :=
  if m.m_PreviewState then m
  else { m with daemonCalls := m.daemonCalls ++ [DaemonCall.startCamera],
                m_PreviewState := true }

/-- `VideoModel::isPreviewing()`. -/
def VideoModel.isPreviewing (m : VideoModel) : Bool := m.m_PreviewState

/-- The `foreach(VideoDevice* dev, m_hDevices)` loop of `VideoModel::activeDevice()`:
the first device whose `id()` is the active id, `some none` when the loop ends without a
match, `none` when `dev->id()` is evaluated on a pointer with no live object. -/
def VideoModel.findActive (active : String) (heap : Heap VideoDevice) :
    List Ptr → Option Ptr
  | [] => some none
  | none :: _ => none
  | some a :: rest =>
    match Heap.deref heap a with
    | none => none
    | some d => if d.id = active then some (some a) else VideoModel.findActive active heap rest

/-- `VideoModel::activeDevice()`: caches the result in `m_pActiveDevice`. -/
def VideoModel.activeDevice (env : Env) (m : VideoModel) : Option (VideoModel × Ptr) :=
  match m.m_pActiveDevice with
  | some a => some (m, some a)
  | none =>
    match VideoModel.findActive env.activeDeviceId m.videoDevices (QHash.values m.m_hDevices) with
    | none => none
    | some p => some ({ m with m_pActiveDevice := p }, p)

/-- `VideoModel::device(id)`: a read through the non-const `operator[]` of `m_hDevices`. -/
def VideoModel.device (m : VideoModel) (id : String) : VideoModel × Ptr :=
  ({ m with m_hDevices := (QHash.index m.m_hDevices id).1 }, (QHash.index m.m_hDevices id).2)

/-- Lines 137-145 of `startedDecoding`: the choice of the `Resolution`. When the
`VideoDeviceModel`'s active device has an active resolution of the requested width, the
resolution of `VideoModel::activeDevice()` is taken (dereferenced without a null check);
otherwise a new `Resolution(width, height)`. -/
def VideoModel.selectResolution (env : Env) (m : VideoModel) (width height : Int) :
    Option (VideoModel × Resolution) :=
  match env.vdmActive with
  | some r =>
    if r.width = width then
      match VideoModel.activeDevice env m with
      | none => none
      | some (_, none) => none
      | some (m1, some a) =>
        match Heap.deref m1.videoDevices a with
        | none => none
        | some d => some (m1, env.deviceResolution d.id)
    else some (m, { width := width, height := height })
  | none => some (m, { width := width, height := height })

/-- Lines 147-157 of `startedDecoding`: create the renderer of `id`, or update the
existing one. -/
def VideoModel.ensureRenderer (m : VideoModel) (id shmPath : String) (res : Resolution) :
    Option VideoModel :=
  match (QHash.index m.m_lRenderers id).2 with
  | none =>
    some { m with
      m_lRenderers := QHash.set (QHash.index m.m_lRenderers id).1 id (some m.next)
      renderers := Heap.store m.renderers m.next
        { id := id, shmPath := shmPath, res := res, movedToThread := true, rendering := false }
      next := m.next + 1
      running := true }
  | some a =>
    match Heap.deref m.renderers a with
    | none => none
    | some r =>
      some { m with
        m_lRenderers := (QHash.index m.m_lRenderers id).1
        renderers := Heap.store m.renderers a { r with shmPath := shmPath, res := res } }

/-- Line 159 of `startedDecoding`: `m_lRenderers[id]->startRendering()`. -/
def VideoModel.startRendering (m : VideoModel) (id : String) : Option VideoModel :=
  match (QHash.index m.m_lRenderers id).2 with
  | none => none
  | some a =>
    match Heap.deref m.renderers a with
    | none => none
    | some r =>
      some { m with
        m_lRenderers := (QHash.index m.m_lRenderers id).1
        renderers := Heap.store m.renderers a { r with rendering := true } }

/-- The statement `if (dev) emit dev->sig(r)`: nothing for a null `dev`, undefined when
`dev` has no live object. -/
def VideoModel.emitOnDevice (m : VideoModel) (dev : Ptr) (sig : Nat → Signal) :
    Option VideoModel :=
  match dev with
  | none => some m
  | some d =>
    match Heap.deref m.videoDevices d with
    | none => none
    | some _ => some { m with emitted := m.emitted ++ [sig d] }

/-- Lines 164-172 of `startedDecoding`. -/
def VideoModel.announceStart (m : VideoModel) (id : String) : VideoModel :=
  if id ≠ "local" then
    { m with emitted := m.emitted ++ [Signal.videoCallInitiated (QHash.value m.m_lRenderers id)] }
  else
    { m with
      m_PreviewState := true
      emitted := m.emitted ++ [Signal.previewStateChanged true,
        Signal.previewStarted (QHash.value m.m_lRenderers id)] }

/-- `VideoModel::startedDecoding(id, shmPath, width, height)`. -/
def VideoModel.startedDecoding (env : Env) (m : VideoModel) (id shmPath : String)
    (width height : Int) : Option VideoModel :=
  match VideoModel.selectResolution env m width height with
  | none => none
  | some (m1, res) =>
    match VideoModel.ensureRenderer m1 id shmPath res with
    | none => none
    | some m2 =>
      match VideoModel.startRendering m2 id with
      | none => none
      | some m3 =>
        match VideoModel.emitOnDevice (VideoModel.device m3 id).1 (VideoModel.device m3 id).2
            (fun d => Signal.renderingStarted d (QHash.value m3.m_lRenderers id)) with
        | none => none
        | some m4 => some (VideoModel.announceStart m4 id)

/-- Lines 179-182 of `stoppedDecoding`: `r = m_lRenderers[id]; if (r) r->stopRendering()`. -/
def VideoModel.stopRendering (m : VideoModel) (id : String) : Option VideoModel :=
  match (QHash.index m.m_lRenderers id).2 with
  | none => some { m with m_lRenderers := (QHash.index m.m_lRenderers id).1 }
  | some a =>
    match Heap.deref m.renderers a with
    | none => none
    | some r =>
      some { m with
        m_lRenderers := (QHash.index m.m_lRenderers id).1
        renderers := Heap.store m.renderers a { r with rendering := false } }

/-- Lines 190-194 of `stoppedDecoding`. -/
def VideoModel.announceStop (m : VideoModel) (id : String) (r : Ptr) : VideoModel :=
  if id = "local" then
    { m with
      m_PreviewState := false
      emitted := m.emitted ++ [Signal.previewStateChanged false, Signal.previewStopped r] }
  else m

/-- Lines 196-197 of `stoppedDecoding`: `m_lRenderers[id] = nullptr; delete r`. -/
def VideoModel.dropRenderer (m : VideoModel) (id : String) (r : Ptr) : VideoModel :=
  { m with
    m_lRenderers := QHash.set m.m_lRenderers id none
    renderers := match r with
      | none => m.renderers
      | some a => Heap.free m.renderers a }

/-- `VideoModel::stoppedDecoding(id, shmPath)`; `shmPath` is `Q_UNUSED`. -/
def VideoModel.stoppedDecoding (m : VideoModel) (id : String) (_shmPath : String) :
    Option VideoModel :=
  match VideoModel.stopRendering m id with
  | none => none
  | some m1 =>
    match VideoModel.emitOnDevice (VideoModel.device m1 id).1 (VideoModel.device m1 id).2
        (fun d => Signal.renderingStopped d (QHash.value m.m_lRenderers id)) with
    | none => none
    | some m2 =>
      some (VideoModel.dropRenderer
        (VideoModel.announceStop m2 id (QHash.value m.m_lRenderers id)) id
        (QHash.value m.m_lRenderers id))

/-- Lines 234-243 of `devices()`, one iteration of the first `foreach`: `acc.1` is the
registry (whose `m_hDevices` is read through the non-const `operator[]`), `acc.2` is the
local `devicesHash`. -/
def VideoModel.collectDevice (acc : VideoModel × QHash) (deviceName : String) :
    VideoModel × QHash :=
  match (QHash.index acc.1.m_hDevices deviceName).2 with
  | none =>
    ({ acc.1 with
        m_hDevices := (QHash.index acc.1.m_hDevices deviceName).1
        videoDevices := Heap.store acc.1.videoDevices acc.1.next { id := deviceName }
        next := acc.1.next + 1 },
      QHash.set acc.2 deviceName (some acc.1.next))
  | some a =>
    ({ acc.1 with m_hDevices := (QHash.index acc.1.m_hDevices deviceName).1 },
      QHash.set acc.2 deviceName (some a))

/-- Lines 244-249 of `devices()`, the second `foreach` over the values of `m_hDevices`:
a non-null device for which `devicesHash.key(dev)` is empty is deleted; deleting a pointer
with no live object is undefined. -/
def VideoModel.deleteStale (devicesHash : QHash) :
    Heap VideoDevice → List Ptr → Option (Heap VideoDevice)
  | heap, [] => some heap
  | heap, none :: rest => VideoModel.deleteStale devicesHash heap rest
  | heap, some a :: rest =>
    if QHash.key devicesHash (some a) = "" then
      match Heap.deref heap a with
      | none => none
      | some _ => VideoModel.deleteStale devicesHash (Heap.free heap a) rest
    else VideoModel.deleteStale devicesHash heap rest

/-- `VideoModel::devices()`: the registry afterwards and the returned `QList<VideoDevice*>`. -/
def VideoModel.devices (env : Env) (m : VideoModel) : Option (VideoModel × List Ptr) :=
  if env.deviceList.length = QHash.size m.m_hDevices then
    some (m, QHash.values m.m_hDevices)
  else
    match VideoModel.deleteStale (env.deviceList.foldl VideoModel.collectDevice (m, [])).2
        (env.deviceList.foldl VideoModel.collectDevice (m, [])).1.videoDevices
        (QHash.values (env.deviceList.foldl VideoModel.collectDevice (m, [])).1.m_hDevices) with
    | none => none
    | some heap =>
      some ({ (env.deviceList.foldl VideoModel.collectDevice (m, [])).1 with
              videoDevices := heap
              m_hDevices := (env.deviceList.foldl VideoModel.collectDevice (m, [])).2 },
            QHash.values (env.deviceList.foldl VideoModel.collectDevice (m, [])).2)

/-! ## Fallback person collection (`fallbackpersoncollection.cpp`) -/

/-- Modelled from the spec: the `Person` class is not part of the source slice; the record
keeps the two things the collection reads from it, `uid()` and the bytes of `toVCard({})`.
A `Person*` is represented by the person it points to. -/
structure Person where
  uid : String
  vcard : String
deriving DecidableEq, Repr

/-- Modelled from the spec: `CollectionMediator<Person>` is not part of the source slice;
it is the sink of the master model, kept as the list of items passed to `addItem`, oldest
first. -/
structure CollectionMediator where
  added : List Person
deriving DecidableEq, Repr

/-- `CollectionMediator::addItem(item)`. -/
def CollectionMediator.addItem (m : CollectionMediator) (item : Person) : CollectionMediator :=
  { added := m.added ++ [item] }

/-- The part of the file system the collection touches: file contents by path, and the
paths on which `QFile::open(WriteOnly)` and `QDir::remove` fail. -/
structure FileSystem where
  files : List (String × String)
  locked : List String
deriving DecidableEq, Repr

/-- `QFile::open(WriteOnly)`, `write(bytes)`, `close()` on a path: the file then holds the
bytes; when the open fails, the write fails too and nothing changes. -/
def FileSystem.writeFile (fs : FileSystem) (path bytes : String) : FileSystem :=
  if path ∈ fs.locked then fs
  else { fs with files := (path, bytes) :: fs.files.filter (fun e => decide (e.1 ≠ path)) }

/-- `QDir::remove(fileName)` for the file at `path`: unlinks it unless that fails. -/
def FileSystem.remove (fs : FileSystem) (path : String) : FileSystem :=
  if path ∈ fs.locked then fs
  else { fs with files := fs.files.filter (fun e => decide (e.1 ≠ path)) }

/-- `FallbackPersonBackendEditor`, with the mediator it was constructed on. -/
structure FallbackPersonBackendEditor where
  m_lItems : List Person
  m_Path : String
  mediator : CollectionMediator
deriving DecidableEq, Repr

/-- `FallbackPersonBackendEditor::save(item)`. -/
def FallbackPersonBackendEditor.save (e : FallbackPersonBackendEditor) (fs : FileSystem)
    (item : Person) : Bool × FallbackPersonBackendEditor × FileSystem :=
  (true, e, FileSystem.writeFile fs (e.m_Path ++ "/" ++ item.uid ++ ".vcf") item.vcard)

/-- `FallbackPersonBackendEditor::remove(item)`. -/
def FallbackPersonBackendEditor.remove (e : FallbackPersonBackendEditor) (fs : FileSystem)
    (_item : Person) : Bool × FallbackPersonBackendEditor × FileSystem :=
  (false, e, fs)

/-- `FallbackPersonBackendEditor::edit(item)`. -/
def FallbackPersonBackendEditor.edit (e : FallbackPersonBackendEditor) (fs : FileSystem)
    (_item : Person) : Bool × FallbackPersonBackendEditor × FileSystem :=
  (false, e, fs)

/-- `FallbackPersonBackendEditor::addNew(item)`. -/
def FallbackPersonBackendEditor.addNew (e : FallbackPersonBackendEditor) (fs : FileSystem)
    (_item : Person) : Bool × FallbackPersonBackendEditor × FileSystem :=
  (false, e, fs)

/-- `FallbackPersonBackendEditor::addExisting(item)`. -/
def FallbackPersonBackendEditor.addExisting (e : FallbackPersonBackendEditor) (fs : FileSystem)
    (item : Person) : Bool × FallbackPersonBackendEditor × FileSystem :=
  (true,
    { e with m_lItems := e.m_lItems ++ [item], mediator := e.mediator.addItem item },
    fs)

/-- `FallbackPersonBackendEditor::items()`. -/
def FallbackPersonBackendEditor.items (e : FallbackPersonBackendEditor) : List Person :=
  e.m_lItems

/-- Issuing `addExisting(p1)`, ..., `addExisting(pn)` in that order: the list of returned
booleans and the editor afterwards. -/
def FallbackPersonBackendEditor.addExistingSeq (fs : FileSystem) :
    FallbackPersonBackendEditor → List Person → List Bool × FallbackPersonBackendEditor
  | e, [] => ([], e)
  | e, p :: ps =>
    ((e.addExisting fs p).1 ::
        (FallbackPersonBackendEditor.addExistingSeq fs (e.addExisting fs p).2.1 ps).1,
      (FallbackPersonBackendEditor.addExistingSeq fs (e.addExisting fs p).2.1 ps).2)

/-- Modelled from the spec: `CollectionInterface::SupportedFeatures` is declared in
`collectioninterface.h`, which is not part of the source slice; the closed set of feature
bits is taken from the spec's data model, in its order. -/
inductive SupportedFeatures where
  | NONE | LOAD | SAVE | EDIT | PROBE | ADD | REMOVE | CUSTOM | SEARCH | CLEAR
  | REMOVE_CREATED | MANAGEABLE | DISABLEABLE | EXPORT | IMPORT
deriving DecidableEq, Repr

/-- Modelled from the spec: the value of each feature flag, `NONE` being zero and every
other flag one distinct bit. -/
def SupportedFeatures.bits : SupportedFeatures → Nat
  | .NONE => 0
  | .LOAD => 1
  | .SAVE => 2
  | .EDIT => 4
  | .PROBE => 8
  | .ADD => 16
  | .REMOVE => 32
  | .CUSTOM => 64
  | .SEARCH => 128
  | .CLEAR => 256
  | .REMOVE_CREATED => 512
  | .MANAGEABLE => 1024
  | .DISABLEABLE => 2048
  | .EXPORT => 4096
  | .IMPORT => 8192

/-- `FallbackPersonCollection::supportedFeatures()`; the `REMOVE` line is commented out in
the source. -/
def FallbackPersonCollection.supportedFeatures : Nat :=
  SupportedFeatures.NONE.bits ||| SupportedFeatures.LOAD.bits |||
  SupportedFeatures.CLEAR.bits ||| SupportedFeatures.MANAGEABLE.bits |||
  SupportedFeatures.ADD.bits

/-- The feature bit `F` is set in `supportedFeatures()`. -/
def FallbackPersonCollection.supports (F : SupportedFeatures) : Bool :=
  FallbackPersonCollection.supportedFeatures &&& F.bits != 0

/-- The operations of `CollectionEditor<Person>` that take an item. -/
inductive EditorOp where
  | save | remove | edit | addNew | addExisting
deriving DecidableEq, Repr

/-- Dispatch of an editor operation to the method of `FallbackPersonBackendEditor`. -/
def FallbackPersonBackendEditor.invoke (op : EditorOp) (e : FallbackPersonBackendEditor)
    (fs : FileSystem) (item : Person) : Bool × FallbackPersonBackendEditor × FileSystem :=
  match op with
  | .save => e.save fs item
  | .remove => e.remove fs item
  | .edit => e.edit fs item
  | .addNew => e.addNew fs item
  | .addExisting => e.addExisting fs item

/-- The spec's "operation corresponding to a feature bit": `SAVE` gates `save`, `EDIT`
gates `edit`, `REMOVE` gates `remove`, `ADD` gates `addNew`; the other bits gate no editor
operation. -/
def operationFor : SupportedFeatures → Option EditorOp
  | .SAVE => some .save
  | .EDIT => some .edit
  | .REMOVE => some .remove
  | .ADD => some .addNew
  | _ => none

/-- `QString::split(sep)` with the default `KeepEmptyParts`: the segments between
separators, at least one. -/
def QString.split (sep : Char) : List Char → List (List Char)
  | [] => [[]]
  | c :: cs =>
    if c = sep then [] :: QString.split sep cs
    else
      match QString.split sep cs with
      | [] => [[c]]
      | seg :: rest => (c :: seg) :: rest

/-- Constructor body of `FallbackPersonCollectionPrivate` (lines 73-77): the value of
`m_Name` for the path, `toUpper` being `QChar::toUpper`. -/
def FallbackPersonCollectionPrivate.deriveName (toUpper : Char → Char) (path : List Char) :
    List Char :=
  match (QString.split '/' path).getLastD [] with
  | [] => "vCard".data
  | c :: cs => toUpper c :: cs

/-- `FallbackPersonCollection` with its private part and its editor; `pendingLoadAsync`
counts the `QTimer::singleShot(0, d_ptr, SLOT(loadAsync()))` posts not yet delivered. -/
structure FallbackPersonCollection where
  editor : FallbackPersonBackendEditor
  m_Path : String
  m_Name : String
  parent : Option String
  pendingLoadAsync : Nat
deriving DecidableEq, Repr

/-- `FallbackPersonCollection::FallbackPersonCollection(mediator, path, parent)`; the parent
collection is identified by its path. -/
def FallbackPersonCollection.create (toUpper : Char → Char) (mediator : CollectionMediator)
    (path : String) (parent : Option String) : FallbackPersonCollection :=
  { editor := { m_lItems := [], m_Path := path, mediator := mediator }
    m_Path := path
    m_Name := String.mk (FallbackPersonCollectionPrivate.deriveName toUpper path.data)
    parent := parent
    pendingLoadAsync := 0 }

/-- `FallbackPersonCollection::name()`. -/
def FallbackPersonCollection.name (c : FallbackPersonCollection) : String := c.m_Name

/-- `FallbackPersonCollection::load()`. `loadDir` is `VCardUtils::loadDir`, the external
parser: the persons parsed from a directory and its `ok` flag, which `load()` never reads. -/
def FallbackPersonCollection.load (c : FallbackPersonCollection) (fs : FileSystem)
    (loadDir : String → List Person × Bool) : Bool × FallbackPersonCollection :=
  (true,
    { c with
      editor := (FallbackPersonBackendEditor.addExistingSeq fs c.editor (loadDir c.m_Path).1).2
      pendingLoadAsync := c.pendingLoadAsync + 1 })

/-- `FallbackPersonCollection::reload()`. -/
def FallbackPersonCollection.reload (c : FallbackPersonCollection) :
    Bool × FallbackPersonCollection :=
  (false, c)

/-- `FallbackPersonCollection::clear()`. `vcfNames` is what
`dir.entryList({"*.vcf"}, QDir::Files)` lists for `QDir(m_Path)`. -/
def FallbackPersonCollection.clear (c : FallbackPersonCollection) (fs : FileSystem)
    (vcfNames : List String) : Bool × FallbackPersonCollection × FileSystem :=
  (true, c, vcfNames.foldl (fun acc file => FileSystem.remove acc (c.m_Path ++ "/" ++ file)) fs)

/-- The two daemon events in arrival order: `startedDecoding` and then `stoppedDecoding`
for the same key. -/
def VideoModel.startThenStop (env : Env) (m : VideoModel) (k shmPath : String)
    (width height : Int) : Option VideoModel :=
  match VideoModel.startedDecoding env m k shmPath width height with
  | none => none
  | some m1 => VideoModel.stoppedDecoding m1 k shmPath

/-- Start notifications: `previewStarted`, `videoCallInitiated`, a device's
`renderingStarted`. -/
def Signal.isStart : Signal → Bool
  | .renderingStarted _ _ => true
  | .videoCallInitiated _ => true
  | .previewStarted _ => true
  | _ => false

/-- Stop notifications: `previewStopped`, a device's `renderingStopped`. -/
def Signal.isStop : Signal → Bool
  | .renderingStopped _ _ => true
  | .previewStopped _ => true
  | _ => false

/-- The width-match branch of `startedDecoding` can be evaluated: whenever the
`VideoDeviceModel`'s active resolution has the requested width, `VideoModel::activeDevice()`
finds a device and that device is live. -/
def VideoModel.ResolutionAvailable (env : Env) (m : VideoModel) (width : Int) : Prop :=
  ∀ r, env.vdmActive = some r → r.width = width →
    ∃ m1 a d, VideoModel.activeDevice env m = some (m1, some a) ∧
      Heap.deref m.videoDevices a = some d

/-- The device pointer stored under `id`, if not null, points to a live device. -/
def VideoModel.DeviceLive (m : VideoModel) (id : String) : Prop :=
  ∀ d, QHash.value m.m_hDevices id = some d → ∃ dev, Heap.deref m.videoDevices d = some dev

/-- An environment in which the `VideoDeviceModel` has no active device. -/
def Env.noDevice : Env :=
  { vdmActive := none, activeDeviceId := "", deviceList := [],
    deviceResolution := fun _ => { width := 0, height := 0 } }

/-- A sample person. -/
def Person.alice : Person := { uid := "A", vcard := "BEGIN:VCARD" }

/-- An empty editor rooted at `/contacts`. -/
def FallbackPersonBackendEditor.sample : FallbackPersonBackendEditor :=
  { m_lItems := [], m_Path := "/contacts", mediator := { added := [] } }

/-- An empty file system on which every path can be written. -/
def FileSystem.empty : FileSystem := { files := [], locked := [] }

/-- A registry that knows one camera, `cam0`, at address 0. -/
def VideoModel.oneCamera : VideoModel :=
  { VideoModel.init with
    m_hDevices := [("cam0", some 0)]
    videoDevices := [(0, { id := "cam0" })]
    next := 1 }

/-- An environment in which `cam0` is the active device and its active resolution is
640x480. -/
def Env.camera640x480 : Env :=
  { vdmActive := some { width := 640, height := 480 }
    activeDeviceId := "cam0"
    deviceList := ["cam0"]
    deviceResolution := fun _ => { width := 640, height := 480 } }

/-- Well-formedness of the device map: the non-null pointers stored in `m_hDevices` are
pairwise distinct and point to live devices, and every live device sits below the
allocator's next address. -/
def VideoModel.DevicesWellFormed (m : VideoModel) : Prop :=
  ((QHash.values m.m_hDevices).filterMap id).Nodup ∧
  (∀ a, some a ∈ QHash.values m.m_hDevices → ∃ d, Heap.deref m.videoDevices a = some d) ∧
  (∀ a d, Heap.deref m.videoDevices a = some d → a < m.next)

/-- The daemon lists two cameras, `cam0` and `cam1`. -/
def Env.twoCameras : Env :=
  { vdmActive := none, activeDeviceId := "cam0", deviceList := ["cam0", "cam1"],
    deviceResolution := fun _ => { width := 640, height := 480 } }

/-- The daemon lists one camera, `cam1`. -/
def Env.otherCamera : Env :=
  { vdmActive := none, activeDeviceId := "cam1", deviceList := ["cam1"],
    deviceResolution := fun _ => { width := 640, height := 480 } }

/-- A file system on which `/contacts/A.vcf` cannot be opened for writing. -/
def FileSystem.lockedCard : FileSystem := { files := [], locked := ["/contacts/A.vcf"] }

/-- `QDir(path).entryList(QDir::AllDirs)` for a directory whose listed subdirectories are
`subdirs`: the filter carries no `QDir::NoDotAndDotDot`, so Qt lists the special entries
`.` and `..` along with the subdirectories. -/
def QDir.entryListAllDirs (subdirs : List String) : List String :=
  "." :: ".." :: subdirs

/-- Modelled from the spec: `PersonModel::addCollection<FallbackPersonCollection, QString,
FallbackPersonCollection*>(path, parent)` belongs to the collection manager, which is not
part of the source slice: it constructs the collection on the manager's mediator and
registers it after the collections registered so far. -/
def PersonModel.addCollection (toUpper : Char → Char) (mediator : CollectionMediator)
    (registered : List FallbackPersonCollection) (path : String) (parent : Option String) :
    List FallbackPersonCollection :=
  registered ++ [FallbackPersonCollection.create toUpper mediator path parent]

/-- `FallbackPersonCollectionPrivate::loadAsync()`, the slot posted by `load()`: the
collections registered with the `PersonModel` afterwards. `q_ptr` is passed as parent, by
its path. -/
def FallbackPersonCollectionPrivate.loadAsync (toUpper : Char → Char)
    (c : FallbackPersonCollection) (subdirs : List String)
    (registered : List FallbackPersonCollection) : List FallbackPersonCollection :=
  (QDir.entryListAllDirs subdirs).foldl
    (fun acc dir =>
      PersonModel.addCollection toUpper c.editor.mediator acc (c.m_Path ++ "/" ++ dir)
        (some c.m_Path))
    registered

/-- A collection rooted at `/contacts`, just constructed. -/
def FallbackPersonCollection.sample : FallbackPersonCollection :=
  FallbackPersonCollection.create Char.toUpper { added := [] } "/contacts" none

/-- A parser that finds no `.vcf` file. -/
def VCardUtils.noCards : String → List Person × Bool := fun _ => ([], true)

/-- The calls that drive the device map. Each call that asks the daemon carries what the
daemon and the `VideoDeviceModel` answer at that moment. -/
inductive VideoModel.Call where
  | startedDecoding (env : Env) (id shmPath : String) (width height : Int)
  | stoppedDecoding (id shmPath : String)
  | device (id : String)
  | devices (env : Env)

/-- The registry after one call; `none` when the call runs into undefined behaviour. -/
def VideoModel.call (m : VideoModel) : VideoModel.Call → Option VideoModel
  | .startedDecoding env id shmPath width height =>
    VideoModel.startedDecoding env m id shmPath width height
  | .stoppedDecoding id shmPath => VideoModel.stoppedDecoding m id shmPath
  | .device id => some (VideoModel.device m id).1
  | .devices env =>
    match VideoModel.devices env m with
    | none => none
    | some r => some r.1

/-- The registry after a sequence of calls, first call first. -/
def VideoModel.run : VideoModel → List VideoModel.Call → Option VideoModel
  | m, [] => some m
  | m, c :: cs =>
    match VideoModel.call m c with
    | none => none
    | some m1 => VideoModel.run m1 cs

/-- The daemon's device list of a `devices()` call carries no empty name. -/
def VideoModel.Call.namesNonEmpty : VideoModel.Call → Prop
  | .devices env => "" ∉ env.deviceList
  | _ => True

/-- Invariant of the device map: one entry per key, a device pointer is stored under one
key only, every stored device is live and carries the name it is stored under, and every
live device sits below the allocator's next address. -/
def VideoModel.DeviceMapInv (m : VideoModel) : Prop :=
  (QHash.keys m.m_hDevices).Nodup ∧
  (∀ k n a, (k, some a) ∈ m.m_hDevices → (n, some a) ∈ m.m_hDevices → k = n) ∧
  (∀ k a, (k, some a) ∈ m.m_hDevices →
    ∃ d, Heap.deref m.videoDevices a = some d ∧ d.id = k) ∧
  (∀ a d, Heap.deref m.videoDevices a = some d → a < m.next)

/-! ## Lemmas on heaps and hashes -/

theorem Heap.deref_free_self {α : Type} (h : Heap α) (a : Nat) :
    Heap.deref (Heap.free h a) a = none := by
  induction h with
  | nil => rfl
  | cons e rest ih =>
    obtain ⟨b, v⟩ := e
    by_cases hb : b = a
    · simpa [Heap.free, List.filter_cons, hb] using ih
    · have : Heap.free ((b, v) :: rest) a = (b, v) :: Heap.free rest a := by
        simp [Heap.free, List.filter_cons, hb]
      rw [this]
      simp [Heap.deref, hb, ih]

theorem Heap.deref_free_ne {α : Type} (h : Heap α) (a b : Nat) (hne : b ≠ a) :
    Heap.deref (Heap.free h a) b = Heap.deref h b := by
  induction h with
  | nil => rfl
  | cons e rest ih =>
    obtain ⟨c, v⟩ := e
    by_cases hc : c = a
    · have h1 : Heap.free ((c, v) :: rest) a = Heap.free rest a := by
        simp [Heap.free, List.filter_cons, hc]
      have h2 : c ≠ b := by rw [hc]; exact fun h => hne h.symm
      rw [h1, ih]
      simp [Heap.deref, h2]
    · have h1 : Heap.free ((c, v) :: rest) a = (c, v) :: Heap.free rest a := by
        simp [Heap.free, List.filter_cons, hc]
      rw [h1]
      by_cases hcb : c = b
      · simp [Heap.deref, hcb]
      · simp [Heap.deref, hcb, ih]

theorem Heap.deref_store_self {α : Type} (h : Heap α) (a : Nat) (v : α) :
    Heap.deref (Heap.store h a v) a = some v := by
  simp [Heap.store, Heap.deref]

theorem Heap.deref_store_ne {α : Type} (h : Heap α) (a b : Nat) (v : α) (hne : b ≠ a) :
    Heap.deref (Heap.store h a v) b = Heap.deref h b := by
  have h2 : a ≠ b := fun h => hne h.symm
  simp [Heap.store, Heap.deref, h2, Heap.deref_free_ne h a b hne]

theorem QHash.value_append_of_contains (h t : QHash) (k : String)
    (hc : QHash.contains h k = true) : QHash.value (h ++ t) k = QHash.value h k := by
  induction h with
  | nil => simp [QHash.contains] at hc
  | cons e rest ih =>
    obtain ⟨k', v⟩ := e
    by_cases hk : k' = k
    · simp [QHash.value, hk]
    · simp only [QHash.contains, hk, if_false] at hc
      simp [QHash.value, hk, ih hc]

theorem QHash.value_append_of_not_contains (h t : QHash) (k : String)
    (hc : QHash.contains h k = false) : QHash.value (h ++ t) k = QHash.value t k := by
  induction h with
  | nil => rfl
  | cons e rest ih =>
    obtain ⟨k', v⟩ := e
    by_cases hk : k' = k
    · simp [QHash.contains, hk] at hc
    · simp only [QHash.contains, hk, if_false] at hc
      simp [QHash.value, hk, ih hc]

theorem QHash.value_of_not_contains (h : QHash) (k : String)
    (hc : QHash.contains h k = false) : QHash.value h k = none := by
  have := QHash.value_append_of_not_contains h [] k hc
  simpa [QHash.value] using this

theorem QHash.index_snd (h : QHash) (k : String) : (QHash.index h k).2 = QHash.value h k := by
  unfold QHash.index
  cases hc : QHash.contains h k
  · simp [QHash.value_of_not_contains h k hc]
  · simp

theorem QHash.value_index (h : QHash) (k k' : String) :
    QHash.value (QHash.index h k).1 k' = QHash.value h k' := by
  unfold QHash.index
  cases hc : QHash.contains h k
  · simp only [Bool.false_eq_true, if_false]
    cases hc' : QHash.contains h k'
    · rw [QHash.value_append_of_not_contains h _ k' hc', QHash.value_of_not_contains h k' hc']
      by_cases hk : k = k' <;> simp [QHash.value, hk]
    · exact QHash.value_append_of_contains h _ k' hc'
  · simp

theorem QHash.contains_append (h t : QHash) (k : String) :
    QHash.contains (h ++ t) k = (QHash.contains h k || QHash.contains t k) := by
  induction h with
  | nil => simp [QHash.contains]
  | cons e rest ih =>
    obtain ⟨k', v⟩ := e
    by_cases hk : k' = k <;> simp [QHash.contains, hk, ih]

theorem QHash.value_map_set (h : QHash) (k k' : String) (v : Ptr) :
    QHash.value (h.map (fun e => if e.1 = k then (k, v) else e)) k' =
      if QHash.contains h k' = true ∧ k' = k then v else QHash.value h k' := by
  induction h with
  | nil => simp [QHash.value, QHash.contains]
  | cons e rest ih =>
    obtain ⟨k0, v0⟩ := e
    rw [List.map_cons]
    by_cases h0 : k0 = k
    · rw [if_pos (show (k0, v0).1 = k from h0)]
      by_cases h1 : k = k'
      · subst h0; subst h1; simp [QHash.value, QHash.contains]
      · subst h0
        have h1' : ¬ k' = k0 := fun h => h1 h.symm
        simp [QHash.value, QHash.contains, h1, h1', ih]
    · rw [if_neg (show ¬ (k0, v0).1 = k from h0)]
      by_cases h1 : k0 = k'
      · subst h1; simp [QHash.value, QHash.contains, h0]
      · simp [QHash.value, QHash.contains, h1, ih]

theorem QHash.value_set_self (h : QHash) (k : String) (v : Ptr) :
    QHash.value (QHash.set h k v) k = v := by
  unfold QHash.set
  cases hc : QHash.contains h k
  · simp [QHash.value_append_of_not_contains h _ k hc, QHash.value]
  · simp [QHash.value_map_set, hc]

theorem QHash.value_set_ne (h : QHash) (k k' : String) (v : Ptr) (hne : k' ≠ k) :
    QHash.value (QHash.set h k v) k' = QHash.value h k' := by
  unfold QHash.set
  cases hc : QHash.contains h k
  · simp only [Bool.false_eq_true, if_false]
    cases hc' : QHash.contains h k'
    · rw [QHash.value_append_of_not_contains h _ k' hc', QHash.value_of_not_contains h k' hc']
      have : ¬ k = k' := fun h => hne h.symm
      simp [QHash.value, this]
    · exact QHash.value_append_of_contains h _ k' hc'
  · simp [QHash.value_map_set, hne]

theorem VideoModel.selectResolution_frame (env : Env) (m m1 : VideoModel) (w h : Int)
    (res : Resolution) (hsel : VideoModel.selectResolution env m w h = some (m1, res)) :
    m1 = { m with m_pActiveDevice := m1.m_pActiveDevice } := by
  unfold VideoModel.selectResolution at hsel
  cases hv : env.vdmActive with
  | none => simp [hv] at hsel; rw [← hsel.1]
  | some r =>
    simp only [hv] at hsel
    by_cases hw : r.width = w
    · simp only [hw, if_true] at hsel
      unfold VideoModel.activeDevice at hsel
      cases hp : m.m_pActiveDevice with
      | some a =>
        simp only [hp] at hsel
        cases hd : Heap.deref m.videoDevices a with
        | none => simp [hd] at hsel
        | some d => simp [hd] at hsel; rw [← hsel.1]
      | none =>
        simp only [hp] at hsel
        cases hf : VideoModel.findActive env.activeDeviceId m.videoDevices
            (QHash.values m.m_hDevices) with
        | none => simp [hf] at hsel
        | some p =>
          simp only [hf] at hsel
          cases p with
          | none => simp at hsel
          | some a =>
            simp only at hsel
            cases hd : Heap.deref m.videoDevices a with
            | none => simp [hd] at hsel
            | some d => simp [hd] at hsel; rw [← hsel.1]
    · simp [hw] at hsel; rw [← hsel.1]

theorem VideoModel.ensureRenderer_new (m : VideoModel) (id shmPath : String) (res : Resolution)
    (hnone : QHash.value m.m_lRenderers id = none) :
    VideoModel.ensureRenderer m id shmPath res = some { m with
      m_lRenderers := QHash.set (QHash.index m.m_lRenderers id).1 id (some m.next)
      renderers := Heap.store m.renderers m.next
        { id := id, shmPath := shmPath, res := res, movedToThread := true, rendering := false }
      next := m.next + 1
      running := true } := by
  unfold VideoModel.ensureRenderer
  rw [QHash.index_snd, hnone]

theorem VideoModel.startRendering_live (m : VideoModel) (id : String) (a : Nat)
    (r : VideoRenderer) (hsome : QHash.value m.m_lRenderers id = some a)
    (hlive : Heap.deref m.renderers a = some r) :
    VideoModel.startRendering m id = some { m with
      m_lRenderers := (QHash.index m.m_lRenderers id).1
      renderers := Heap.store m.renderers a { r with rendering := true } } := by
  unfold VideoModel.startRendering
  rw [QHash.index_snd, hsome]
  simp only [hlive]

theorem VideoModel.emitOnDevice_live (m : VideoModel) (dev : Ptr) (sig : Nat → Signal)
    (hlive : ∀ d, dev = some d → ∃ o, Heap.deref m.videoDevices d = some o) :
    VideoModel.emitOnDevice m dev sig = some { m with
      emitted := m.emitted ++ (dev.map sig).toList } := by
  unfold VideoModel.emitOnDevice
  cases dev with
  | none => simp
  | some d =>
    obtain ⟨o, ho⟩ := hlive d rfl
    simp [ho]

theorem QHash.contains_map_set (h : QHash) (k k' : String) (v : Ptr) :
    QHash.contains (h.map (fun e => if e.1 = k then (k, v) else e)) k' = QHash.contains h k' := by
  induction h with
  | nil => rfl
  | cons e rest ih =>
    obtain ⟨k0, v0⟩ := e
    rw [List.map_cons]
    by_cases h0 : k0 = k
    · rw [if_pos (show (k0, v0).1 = k from h0)]
      subst h0
      by_cases h1 : k0 = k' <;> simp [QHash.contains, h1, ih]
    · rw [if_neg (show ¬ (k0, v0).1 = k from h0)]
      by_cases h1 : k0 = k' <;> simp [QHash.contains, h1, ih]

theorem QHash.contains_set_self (h : QHash) (k : String) (v : Ptr) :
    QHash.contains (QHash.set h k v) k = true := by
  unfold QHash.set
  cases hc : QHash.contains h k
  · simp [QHash.contains_append, QHash.contains]
  · simp [QHash.contains_map_set, hc]

theorem QHash.index_fst_of_contains (h : QHash) (k : String)
    (hc : QHash.contains h k = true) : (QHash.index h k).1 = h := by
  simp [QHash.index, hc]

theorem VideoModel.startedDecoding_new (env : Env) (m m1 : VideoModel) (id shmPath : String)
    (w h : Int) (res : Resolution)
    (hsel : VideoModel.selectResolution env m w h = some (m1, res))
    (hnone : QHash.value m.m_lRenderers id = none) (hd : VideoModel.DeviceLive m id) :
    VideoModel.startedDecoding env m id shmPath w h = some (VideoModel.announceStart
      { m1 with
        m_lRenderers := QHash.set (QHash.index m.m_lRenderers id).1 id (some m.next)
        m_hDevices := (QHash.index m.m_hDevices id).1
        renderers := Heap.store (Heap.store m.renderers m.next
          { id := id, shmPath := shmPath, res := res, movedToThread := true,
            rendering := false }) m.next
          { id := id, shmPath := shmPath, res := res, movedToThread := true, rendering := true }
        next := m.next + 1
        running := true
        emitted := m.emitted ++
          ((QHash.value m.m_hDevices id).map
            (fun d => Signal.renderingStarted d (some m.next))).toList } id) := by
  have hm1 := VideoModel.selectResolution_frame env m m1 w h res hsel
  have hL : m1.m_lRenderers = m.m_lRenderers := by rw [hm1]
  have hD : m1.m_hDevices = m.m_hDevices := by rw [hm1]
  have hR : m1.renderers = m.renderers := by rw [hm1]
  have hV : m1.videoDevices = m.videoDevices := by rw [hm1]
  have hN : m1.next = m.next := by rw [hm1]
  have hE : m1.emitted = m.emitted := by rw [hm1]
  unfold VideoModel.startedDecoding
  rw [hsel]
  simp only
  rw [VideoModel.ensureRenderer_new m1 id shmPath res (by rw [hL]; exact hnone)]
  simp only
  rw [VideoModel.startRendering_live _ id m.next
    { id := id, shmPath := shmPath, res := res, movedToThread := true, rendering := false }
    (by simp [hN, QHash.value_set_self]) (by simp [hN, Heap.deref_store_self])]
  simp only
  rw [VideoModel.emitOnDevice_live]
  · simp only [VideoModel.device, QHash.index_snd, QHash.value_set_self, hL, hD, hR, hN, hE,
      QHash.index_fst_of_contains _ _ (QHash.contains_set_self _ _ _)]
  · intro d hdv
    simp only [VideoModel.device, QHash.index_snd, hD] at hdv
    simpa [VideoModel.device, hV] using hd d hdv

theorem VideoModel.stoppedDecoding_none (m : VideoModel) (id shmPath : String)
    (hnone : QHash.value m.m_lRenderers id = none) (hd : VideoModel.DeviceLive m id) :
    VideoModel.stoppedDecoding m id shmPath = some (VideoModel.dropRenderer
      (VideoModel.announceStop
        { m with
          m_lRenderers := (QHash.index m.m_lRenderers id).1
          m_hDevices := (QHash.index m.m_hDevices id).1
          emitted := m.emitted ++
            ((QHash.value m.m_hDevices id).map
              (fun d => Signal.renderingStopped d none)).toList } id none) id none) := by
  unfold VideoModel.stoppedDecoding VideoModel.stopRendering
  rw [QHash.index_snd, hnone]
  simp only
  rw [VideoModel.emitOnDevice_live]
  · simp only [VideoModel.device, QHash.index_snd]
  · intro d hdv
    simp only [VideoModel.device, QHash.index_snd] at hdv
    simpa [VideoModel.device] using hd d hdv

theorem VideoModel.stoppedDecoding_some (m : VideoModel) (id shmPath : String) (a : Nat)
    (r : VideoRenderer) (hsome : QHash.value m.m_lRenderers id = some a)
    (hlive : Heap.deref m.renderers a = some r) (hd : VideoModel.DeviceLive m id) :
    VideoModel.stoppedDecoding m id shmPath = some (VideoModel.dropRenderer
      (VideoModel.announceStop
        { m with
          m_lRenderers := (QHash.index m.m_lRenderers id).1
          m_hDevices := (QHash.index m.m_hDevices id).1
          renderers := Heap.store m.renderers a { r with rendering := false }
          emitted := m.emitted ++
            ((QHash.value m.m_hDevices id).map
              (fun d => Signal.renderingStopped d (some a))).toList } id (some a))
        id (some a)) := by
  unfold VideoModel.stoppedDecoding VideoModel.stopRendering
  rw [QHash.index_snd, hsome]
  simp only [hlive]
  rw [VideoModel.emitOnDevice_live]
  · simp only [VideoModel.device, QHash.index_snd]
  · intro d hdv
    simp only [VideoModel.device, QHash.index_snd] at hdv
    simpa [VideoModel.device] using hd d hdv

@[simp] theorem VideoModel.announceStart_m_lRenderers (m : VideoModel) (id : String) :
    (VideoModel.announceStart m id).m_lRenderers = m.m_lRenderers := by
  unfold VideoModel.announceStart; split <;> rfl

@[simp] theorem VideoModel.announceStart_m_hDevices (m : VideoModel) (id : String) :
    (VideoModel.announceStart m id).m_hDevices = m.m_hDevices := by
  unfold VideoModel.announceStart; split <;> rfl

@[simp] theorem VideoModel.announceStart_renderers (m : VideoModel) (id : String) :
    (VideoModel.announceStart m id).renderers = m.renderers := by
  unfold VideoModel.announceStart; split <;> rfl

@[simp] theorem VideoModel.announceStart_videoDevices (m : VideoModel) (id : String) :
    (VideoModel.announceStart m id).videoDevices = m.videoDevices := by
  unfold VideoModel.announceStart; split <;> rfl

@[simp] theorem VideoModel.announceStart_next (m : VideoModel) (id : String) :
    (VideoModel.announceStart m id).next = m.next := by
  unfold VideoModel.announceStart; split <;> rfl

theorem VideoModel.announceStart_emitted (m : VideoModel) (id : String) :
    (VideoModel.announceStart m id).emitted = m.emitted ++
      (if id = "local" then
        [Signal.previewStateChanged true, Signal.previewStarted (QHash.value m.m_lRenderers id)]
      else [Signal.videoCallInitiated (QHash.value m.m_lRenderers id)]) := by
  unfold VideoModel.announceStart
  by_cases hid : id = "local" <;> simp [hid]

@[simp] theorem VideoModel.announceStop_m_lRenderers (m : VideoModel) (id : String) (r : Ptr) :
    (VideoModel.announceStop m id r).m_lRenderers = m.m_lRenderers := by
  unfold VideoModel.announceStop; split <;> rfl

@[simp] theorem VideoModel.announceStop_m_hDevices (m : VideoModel) (id : String) (r : Ptr) :
    (VideoModel.announceStop m id r).m_hDevices = m.m_hDevices := by
  unfold VideoModel.announceStop; split <;> rfl

@[simp] theorem VideoModel.announceStop_renderers (m : VideoModel) (id : String) (r : Ptr) :
    (VideoModel.announceStop m id r).renderers = m.renderers := by
  unfold VideoModel.announceStop; split <;> rfl

@[simp] theorem VideoModel.announceStop_videoDevices (m : VideoModel) (id : String) (r : Ptr) :
    (VideoModel.announceStop m id r).videoDevices = m.videoDevices := by
  unfold VideoModel.announceStop; split <;> rfl

theorem VideoModel.announceStop_m_PreviewState (m : VideoModel) (id : String) (r : Ptr) :
    (VideoModel.announceStop m id r).m_PreviewState =
      if id = "local" then false else m.m_PreviewState := by
  unfold VideoModel.announceStop
  by_cases hid : id = "local" <;> simp [hid]

theorem VideoModel.announceStop_emitted (m : VideoModel) (id : String) (r : Ptr) :
    (VideoModel.announceStop m id r).emitted = m.emitted ++
      (if id = "local" then [Signal.previewStateChanged false, Signal.previewStopped r]
      else []) := by
  unfold VideoModel.announceStop
  by_cases hid : id = "local" <;> simp [hid]

theorem VideoModel.activeDevice_frame (env : Env) (m m1 : VideoModel) (p : Ptr)
    (h : VideoModel.activeDevice env m = some (m1, p)) :
    m1 = { m with m_pActiveDevice := m1.m_pActiveDevice } := by
  unfold VideoModel.activeDevice at h
  cases hp : m.m_pActiveDevice with
  | some a => simp [hp] at h; rw [← h.1]
  | none =>
    simp only [hp] at h
    cases hf : VideoModel.findActive env.activeDeviceId m.videoDevices
        (QHash.values m.m_hDevices) with
    | none => simp [hf] at h
    | some q => simp [hf] at h; rw [← h.1]

theorem VideoModel.selectResolution_isSome (env : Env) (m : VideoModel) (w h : Int)
    (hres : VideoModel.ResolutionAvailable env m w) :
    ∃ m1 res, VideoModel.selectResolution env m w h = some (m1, res) := by
  unfold VideoModel.selectResolution
  cases hv : env.vdmActive with
  | none => exact ⟨m, _, rfl⟩
  | some r =>
    by_cases hw : r.width = w
    · obtain ⟨m1, a, d, hact, hlive⟩ := hres r hv hw
      have hm1 := VideoModel.activeDevice_frame env m m1 (some a) hact
      have hV : m1.videoDevices = m.videoDevices := by rw [hm1]
      simp only [hw, if_true, hact, hV, hlive]
      exact ⟨m1, _, rfl⟩
    · simp only [hw, if_false]
      exact ⟨m, _, rfl⟩

theorem VideoModel.selectResolution_of_no_match (env : Env) (m : VideoModel) (w h : Int)
    (hno : ∀ r, env.vdmActive = some r → r.width ≠ w) :
    VideoModel.selectResolution env m w h = some (m, { width := w, height := h }) := by
  unfold VideoModel.selectResolution
  cases hv : env.vdmActive with
  | none => rfl
  | some r => simp [hno r hv]

/-! ## Theorems -/

/-- C1, counterexample. From the empty registry (no renderer for `"call-42"`) the events
`startedDecoding("call-42", "/tmp/shm2", 1280, 720)` and `stoppedDecoding("call-42", ...)`
emit `videoCallInitiated` and nothing else: the number of stop notifications is zero, not
one. -/
theorem VideoModel.startThenStop_call_emits_no_stop :
    VideoModel.getRenderer VideoModel.init "call-42" = none ∧
    ∃ m2, VideoModel.startThenStop Env.noDevice VideoModel.init "call-42" "/tmp/shm2" 1280 720
        = some m2 ∧
      m2.emitted = [Signal.videoCallInitiated (some 0)] ∧
      ¬ (m2.emitted.countP Signal.isStop = 1) := by
  refine ⟨by decide, _, rfl, by decide, by decide⟩

/-- C1, amended. For a key `k` with no renderer, when the start event can be evaluated (the
width-match branch finds a live device, and the device stored under `k`, if any, is live),
`startedDecoding(k, ...)` followed by `stoppedDecoding(k, ...)` completes, the lookup of `k`
then yields no renderer, and the signals of the two events are exactly, in this order and
all carrying the renderer created by the start event: `renderingStarted` of the device
stored under `k` (only when there is one); `previewStateChanged(true)` and `previewStarted`
when `k` is `"local"`, otherwise `videoCallInitiated`; `renderingStopped` of the device
stored under `k` (only when there is one); `previewStateChanged(false)` and `previewStopped`
when `k` is `"local"`, otherwise nothing. So the start notifications are one from the
registry plus one `renderingStarted` when a device is stored under `k`, and the stop
notifications are one `previewStopped` only when `k` is `"local"` plus one
`renderingStopped` when a device is stored under `k`. -/
theorem VideoModel.startThenStop_lookup_and_signals (env : Env) (m : VideoModel)
    (k shmPath : String) (w h : Int)
    (hno : VideoModel.getRenderer m k = none)
    (hres : VideoModel.ResolutionAvailable env m w)
    (hdev : VideoModel.DeviceLive m k) :
    ∃ m2 sigs, VideoModel.startThenStop env m k shmPath w h = some m2 ∧
      VideoModel.getRenderer m2 k = none ∧
      m2.emitted = m.emitted ++ sigs ∧
      sigs =
        ((QHash.value m.m_hDevices k).map
            (fun d => Signal.renderingStarted d (some m.next))).toList ++
          (if k = "local" then
            [Signal.previewStateChanged true, Signal.previewStarted (some m.next)]
          else [Signal.videoCallInitiated (some m.next)]) ++
          ((QHash.value m.m_hDevices k).map
            (fun d => Signal.renderingStopped d (some m.next))).toList ++
          (if k = "local" then
            [Signal.previewStateChanged false, Signal.previewStopped (some m.next)]
          else []) ∧
      sigs.countP Signal.isStart =
        1 + (if (QHash.value m.m_hDevices k).isSome then 1 else 0) ∧
      sigs.countP Signal.isStop =
        (if k = "local" then 1 else 0) +
          (if (QHash.value m.m_hDevices k).isSome then 1 else 0) := by
  obtain ⟨m1, res, hsel⟩ := VideoModel.selectResolution_isSome env m w h hres
  have hm1 := VideoModel.selectResolution_frame env m m1 w h res hsel
  have hV : m1.videoDevices = m.videoDevices := by rw [hm1]
  have hstart := VideoModel.startedDecoding_new env m m1 k shmPath w h res hsel hno hdev
  unfold VideoModel.startThenStop
  rw [hstart]
  simp only
  rw [VideoModel.stoppedDecoding_some _ k shmPath m.next
    { id := k, shmPath := shmPath, res := res, movedToThread := true, rendering := true }
    (by simp [QHash.value_set_self]) (by simp [Heap.deref_store_self])
    (by
      intro d hdv
      simp only [VideoModel.announceStart_m_hDevices, QHash.value_index] at hdv
      simpa [hV] using hdev d hdv)]
  refine ⟨_,
    ((QHash.value m.m_hDevices k).map
        (fun d => Signal.renderingStarted d (some m.next))).toList ++
      (if k = "local" then
        [Signal.previewStateChanged true, Signal.previewStarted (some m.next)]
      else [Signal.videoCallInitiated (some m.next)]) ++
      ((QHash.value m.m_hDevices k).map
        (fun d => Signal.renderingStopped d (some m.next))).toList ++
      (if k = "local" then
        [Signal.previewStateChanged false, Signal.previewStopped (some m.next)]
      else []), rfl, ?_, ?_, rfl, ?_, ?_⟩
  · simp [VideoModel.getRenderer, VideoModel.dropRenderer, QHash.value_set_self]
  · simp only [VideoModel.dropRenderer, VideoModel.announceStop_emitted,
      VideoModel.announceStart_emitted, VideoModel.announceStart_m_hDevices,
      VideoModel.announceStart_m_lRenderers, QHash.value_index, QHash.value_set_self,
      List.append_assoc]
  · cases hdv : QHash.value m.m_hDevices k <;> by_cases hk : k = "local" <;>
      simp [hk, Signal.isStart, List.countP_cons]
  · cases hdv : QHash.value m.m_hDevices k <;> by_cases hk : k = "local" <;>
      simp [hk, Signal.isStop, Signal.isStart, List.countP_cons]

/-- C1, witness: the preview key on the empty registry. -/
theorem VideoModel.startThenStop_lookup_and_signals_witness :
    VideoModel.getRenderer VideoModel.init "local" = none ∧
    ∃ m2 sigs, VideoModel.startThenStop Env.noDevice VideoModel.init "local" "/tmp/shm" 640 480
        = some m2 ∧
      VideoModel.getRenderer m2 "local" = none ∧
      m2.emitted = VideoModel.init.emitted ++ sigs ∧
      sigs =
        ((QHash.value VideoModel.init.m_hDevices "local").map
            (fun d => Signal.renderingStarted d (some VideoModel.init.next))).toList ++
          (if "local" = "local" then
            [Signal.previewStateChanged true, Signal.previewStarted (some VideoModel.init.next)]
          else [Signal.videoCallInitiated (some VideoModel.init.next)]) ++
          ((QHash.value VideoModel.init.m_hDevices "local").map
            (fun d => Signal.renderingStopped d (some VideoModel.init.next))).toList ++
          (if "local" = "local" then
            [Signal.previewStateChanged false, Signal.previewStopped (some VideoModel.init.next)]
          else []) ∧
      sigs.countP Signal.isStart =
        1 + (if (QHash.value VideoModel.init.m_hDevices "local").isSome then 1 else 0) ∧
      sigs.countP Signal.isStop =
        (if "local" = "local" then 1 else 0) +
          (if (QHash.value VideoModel.init.m_hDevices "local").isSome then 1 else 0) :=
  ⟨by decide,
    VideoModel.startThenStop_lookup_and_signals Env.noDevice VideoModel.init "local" "/tmp/shm"
      640 480 (by decide) (by intro r hr; simp [Env.noDevice] at hr)
      (by intro d hd; simp [VideoModel.init, QHash.value] at hd)⟩

/-- C2, counterexample. `SAVE` is not in `supportedFeatures()`, `save` is the operation that
`SAVE` gates, and `save` returns true. -/
theorem FallbackPersonBackendEditor.save_not_refused :
    FallbackPersonCollection.supports SupportedFeatures.SAVE = false ∧
    operationFor SupportedFeatures.SAVE = some EditorOp.save ∧
    (FallbackPersonBackendEditor.invoke EditorOp.save FallbackPersonBackendEditor.sample
      FileSystem.empty Person.alice).1 = true := by
  decide

/-- C2, amended. For every feature bit `F` that is not in `supportedFeatures()` and gates an
editor operation (these are `SAVE`, `EDIT` and `REMOVE`), the operation leaves `items()` and
the items pushed to the mediator unchanged; `edit` and `remove` return false, and `save`
returns true. -/
theorem FallbackPersonBackendEditor.unsupported_leaves_items (F : SupportedFeatures)
    (op : EditorOp) (e : FallbackPersonBackendEditor) (fs : FileSystem) (item : Person)
    (hF : FallbackPersonCollection.supports F = false) (hop : operationFor F = some op) :
    (F = SupportedFeatures.SAVE ∨ F = SupportedFeatures.EDIT ∨ F = SupportedFeatures.REMOVE) ∧
    (FallbackPersonBackendEditor.invoke op e fs item).2.1.items = e.items ∧
    (FallbackPersonBackendEditor.invoke op e fs item).2.1.mediator = e.mediator ∧
    ((FallbackPersonBackendEditor.invoke op e fs item).1 = false ↔
      F ≠ SupportedFeatures.SAVE) := by
  cases F <;> simp [operationFor] at hop <;> subst hop <;>
    first
    | (exfalso; revert hF; decide)
    | simp [FallbackPersonBackendEditor.invoke, FallbackPersonBackendEditor.save,
        FallbackPersonBackendEditor.edit, FallbackPersonBackendEditor.remove]

/-- C2, witness: `remove` on a sample editor. -/
theorem FallbackPersonBackendEditor.unsupported_leaves_items_witness :
    (SupportedFeatures.REMOVE = SupportedFeatures.SAVE ∨
      SupportedFeatures.REMOVE = SupportedFeatures.EDIT ∨
      SupportedFeatures.REMOVE = SupportedFeatures.REMOVE) ∧
    (FallbackPersonBackendEditor.invoke EditorOp.remove FallbackPersonBackendEditor.sample
      FileSystem.empty Person.alice).2.1.items = FallbackPersonBackendEditor.sample.items ∧
    (FallbackPersonBackendEditor.invoke EditorOp.remove FallbackPersonBackendEditor.sample
      FileSystem.empty Person.alice).2.1.mediator = FallbackPersonBackendEditor.sample.mediator ∧
    ((FallbackPersonBackendEditor.invoke EditorOp.remove FallbackPersonBackendEditor.sample
      FileSystem.empty Person.alice).1 = false ↔
        SupportedFeatures.REMOVE ≠ SupportedFeatures.SAVE) :=
  FallbackPersonBackendEditor.unsupported_leaves_items SupportedFeatures.REMOVE EditorOp.remove
    FallbackPersonBackendEditor.sample FileSystem.empty Person.alice (by decide) (by decide)

/-- C3. From every registry state, two `startPreview()` calls in a row end with
`isPreviewing()` true; the second call changes nothing; and over the two calls
`startCamera()` is issued once when the registry was not previewing and not at all when it
was. -/
theorem VideoModel.startPreview_twice (m : VideoModel) :
    m.startPreview.startPreview.isPreviewing = true ∧
    m.startPreview.startPreview = m.startPreview ∧
    m.startPreview.startPreview.daemonCalls =
      m.daemonCalls ++ (if m.isPreviewing then [] else [DaemonCall.startCamera]) := by
  unfold VideoModel.startPreview VideoModel.isPreviewing
  cases hp : m.m_PreviewState <;> simp [hp]

/-- C4. For every editor state and every sequence of persons, `addExisting(p1)`, ...,
`addExisting(pn)` each return true, `items()` afterwards is the previous `items()` followed
by `p1..pn` in order, and the mediator has received `addItem(p1)`, ..., `addItem(pn)` in
that order after what it had received before. -/
theorem FallbackPersonBackendEditor.addExistingSeq_appends (fs : FileSystem)
    (e : FallbackPersonBackendEditor) (ps : List Person) :
    (FallbackPersonBackendEditor.addExistingSeq fs e ps).1 = List.replicate ps.length true ∧
    (FallbackPersonBackendEditor.addExistingSeq fs e ps).2.items = e.items ++ ps ∧
    (FallbackPersonBackendEditor.addExistingSeq fs e ps).2.mediator.added =
      e.mediator.added ++ ps := by
  induction ps generalizing e with
  | nil => simp [FallbackPersonBackendEditor.addExistingSeq]
  | cons p ps ih =>
    obtain ⟨h1, h2, h3⟩ := ih (e.addExisting fs p).2.1
    refine ⟨?_, ?_, ?_⟩
    · simp only [FallbackPersonBackendEditor.addExistingSeq, h1]
      simp [List.replicate_succ, FallbackPersonBackendEditor.addExisting]
    · simp only [FallbackPersonBackendEditor.addExistingSeq, h2]
      simp [FallbackPersonBackendEditor.addExisting, FallbackPersonBackendEditor.items]
    · simp only [FallbackPersonBackendEditor.addExistingSeq, h3]
      simp [FallbackPersonBackendEditor.addExisting, CollectionMediator.addItem]

/-- C5, the code at the failing input. With `cam0` active at 640x480, the event
`startedDecoding("call-42", "/tmp/shm2", 640, 360)` creates a renderer whose resolution is
the camera's 640x480 and not the requested 640x360: the width-match branch (marked
`FIXME flawed logic` in the source) compares widths only. -/
theorem VideoModel.startedDecoding_width_match_keeps_camera_height :
    ∃ m1 r, VideoModel.startedDecoding Env.camera640x480 VideoModel.oneCamera "call-42"
        "/tmp/shm2" 640 360 = some m1 ∧
      VideoModel.getRenderer m1 "call-42" = some 1 ∧
      Heap.deref m1.renderers 1 = some r ∧
      r.shmPath = "/tmp/shm2" ∧
      r.res = { width := 640, height := 480 } ∧
      r.res ≠ { width := 640, height := 360 } := by
  refine ⟨_, _, rfl, by decide, rfl, by decide, by decide, by decide⟩

theorem QHash.value_set_index_none (h : QHash) (k k' : String)
    (hnone : QHash.value h k = none) :
    QHash.value (QHash.set (QHash.index h k).1 k none) k' = QHash.value h k' := by
  by_cases hk : k' = k
  · subst hk
    rw [QHash.value_set_self, hnone]
  · rw [QHash.value_set_ne _ _ _ _ hk, QHash.value_index]

/-- C7, counterexample. After `startPreview()` on the empty registry there is no renderer
for `"local"` and the previewing flag is set; `stoppedDecoding("local", "/tmp/shm")` then
emits `previewStateChanged(false)` and `previewStopped(nullptr)` and clears the flag. -/
theorem VideoModel.stoppedDecoding_local_without_renderer :
    VideoModel.getRenderer VideoModel.init.startPreview "local" = none ∧
    VideoModel.init.startPreview.m_PreviewState = true ∧
    ∃ m1, VideoModel.stoppedDecoding VideoModel.init.startPreview "local" "/tmp/shm" = some m1 ∧
      m1.emitted = [Signal.previewStateChanged false, Signal.previewStopped none] ∧
      m1.m_PreviewState = false := by
  refine ⟨by decide, by decide, _, rfl, by decide, by decide⟩

/-- C7, amended. In `stoppedDecoding(id, shmPath)` only the `stopRendering()` call depends on
a renderer existing. For every registry state with no renderer for `id` (the device stored
under `id`, if any, being live) the event completes, every lookup in the renderer map and
the renderer objects are as before; a `renderingStopped(nullptr)` is emitted when a device
is stored under `id`; for `id == "local"` the previewing flag is cleared and
`previewStateChanged(false)`, `previewStopped(nullptr)` are emitted; for `id != "local"` the
previewing flag is unchanged and nothing else is emitted. -/
theorem VideoModel.stoppedDecoding_without_renderer (m : VideoModel) (id shmPath : String)
    (hno : VideoModel.getRenderer m id = none) (hdev : VideoModel.DeviceLive m id) :
    ∃ m1, VideoModel.stoppedDecoding m id shmPath = some m1 ∧
      (∀ k, VideoModel.getRenderer m1 k = VideoModel.getRenderer m k) ∧
      m1.renderers = m.renderers ∧
      m1.m_PreviewState = (if id = "local" then false else m.m_PreviewState) ∧
      m1.emitted = m.emitted ++
        ((QHash.value m.m_hDevices id).map (fun d => Signal.renderingStopped d none)).toList ++
        (if id = "local" then [Signal.previewStateChanged false, Signal.previewStopped none]
         else []) := by
  rw [VideoModel.stoppedDecoding_none m id shmPath hno hdev]
  refine ⟨_, rfl, ?_, ?_, ?_, ?_⟩
  · intro k
    simp only [VideoModel.getRenderer, VideoModel.dropRenderer,
      VideoModel.announceStop_m_lRenderers]
    exact QHash.value_set_index_none m.m_lRenderers id k hno
  · simp [VideoModel.dropRenderer]
  · simp [VideoModel.dropRenderer, VideoModel.announceStop_m_PreviewState]
  · simp [VideoModel.dropRenderer, VideoModel.announceStop_emitted]

/-- C7, witness: a call key on the empty registry. -/
theorem VideoModel.stoppedDecoding_without_renderer_witness :
    ∃ m1, VideoModel.stoppedDecoding VideoModel.init "call-42" "/tmp/shm2" = some m1 ∧
      (∀ k, VideoModel.getRenderer m1 k = VideoModel.getRenderer VideoModel.init k) ∧
      m1.renderers = VideoModel.init.renderers ∧
      m1.m_PreviewState =
        (if "call-42" = "local" then false else VideoModel.init.m_PreviewState) ∧
      m1.emitted = VideoModel.init.emitted ++
        ((QHash.value VideoModel.init.m_hDevices "call-42").map
          (fun d => Signal.renderingStopped d none)).toList ++
        (if "call-42" = "local" then
          [Signal.previewStateChanged false, Signal.previewStopped none]
         else []) :=
  VideoModel.stoppedDecoding_without_renderer VideoModel.init "call-42" "/tmp/shm2"
    (by decide) (by intro d hd; simp [VideoModel.init, QHash.value] at hd)

theorem QHash.mem_set (h : QHash) (k : String) (v : Ptr) (e : String × Ptr)
    (he : e ∈ QHash.set h k v) : e ∈ h ∨ e = (k, v) := by
  unfold QHash.set at he
  split at he
  · rw [List.mem_map] at he
    obtain ⟨e0, he0, heq⟩ := he
    by_cases hk : e0.1 = k
    · rw [if_pos hk] at heq
      exact Or.inr heq.symm
    · rw [if_neg hk] at heq
      exact Or.inl (heq ▸ he0)
  · rw [List.mem_append] at he
    rcases he with he | he
    · exact Or.inl he
    · exact Or.inr (by simpa using he)

theorem QHash.value_mem (h : QHash) (k : String) (a : Nat)
    (hv : QHash.value h k = some a) : (k, some a) ∈ h := by
  induction h with
  | nil => simp [QHash.value] at hv
  | cons e rest ih =>
    obtain ⟨k0, v0⟩ := e
    by_cases hk : k0 = k
    · simp only [QHash.value, hk, if_true] at hv
      simp [hk, hv]
    · simp only [QHash.value, hk, if_false] at hv
      exact List.mem_cons_of_mem _ (ih hv)

theorem QHash.contains_iff_mem_keys (h : QHash) (k : String) :
    QHash.contains h k = true ↔ k ∈ QHash.keys h := by
  induction h with
  | nil => simp [QHash.contains, QHash.keys]
  | cons e rest ih =>
    obtain ⟨k0, v0⟩ := e
    by_cases hk : k0 = k
    · simp [QHash.contains, QHash.keys, hk]
    · have hk' : ¬ k = k0 := fun h => hk h.symm
      simp only [QHash.contains, hk, if_false, ih]
      simp [QHash.keys, hk']

theorem QHash.contains_set (h : QHash) (k : String) (v : Ptr) (k' : String) :
    QHash.contains (QHash.set h k v) k' = (QHash.contains h k' || decide (k' = k)) := by
  unfold QHash.set
  cases hc : QHash.contains h k
  · simp only [Bool.false_eq_true, if_false, QHash.contains_append]
    by_cases hk : k = k'
    · simp [QHash.contains, hk]
    · have hk' : ¬ k' = k := fun h => hk h.symm
      simp [QHash.contains, hk, hk']
  · simp only [if_true, QHash.contains_map_set]
    by_cases hk : k' = k
    · simp [hk, hc]
    · simp [hk]

theorem QHash.key_eq_empty (h : QHash) (v : Ptr) (hno : ∀ k, (k, v) ∉ h) :
    QHash.key h v = "" := by
  induction h with
  | nil => rfl
  | cons e rest ih =>
    obtain ⟨k0, v0⟩ := e
    have hv : ¬ v0 = v := by
      intro hv
      exact hno k0 (by simp [hv])
    simp only [QHash.key, hv, if_false]
    exact ih (fun k hk => hno k (List.mem_cons_of_mem _ hk))

theorem QHash.key_mem (h : QHash) (v : Ptr) (k : String) (hk : (k, v) ∈ h) :
    (QHash.key h v, v) ∈ h := by
  induction h with
  | nil => simp at hk
  | cons e rest ih =>
    obtain ⟨k0, v0⟩ := e
    by_cases hv : v0 = v
    · simp [QHash.key, hv]
    · simp only [QHash.key, hv, if_false]
      have hk' : (k, v) ∈ rest := by
        rcases List.mem_cons.mp hk with h1 | h1
        · exact absurd (Prod.mk.inj h1).2.symm hv
        · exact h1
      exact List.mem_cons_of_mem _ (ih hk')

theorem QHash.index_fst_eq (h : QHash) (k : String) :
    ∃ ex : QHash, (QHash.index h k).1 = h ++ ex ∧ ∀ e ∈ ex, e.2 = none := by
  unfold QHash.index
  cases hc : QHash.contains h k
  · exact ⟨[(k, none)], by simp, by simp⟩
  · exact ⟨[], by simp, by simp⟩

theorem QHash.ptr_unique (h : QHash) (k n : String) (a : Nat)
    (hnd : ((QHash.values h).filterMap id).Nodup)
    (hk : (k, some a) ∈ h) (hn : (n, some a) ∈ h) : k = n := by
  induction h with
  | nil => simp at hk
  | cons e rest ih =>
    obtain ⟨k0, v0⟩ := e
    have hin : ∀ x : String, (x, some a) ∈ rest → a ∈ (QHash.values rest).filterMap id := by
      intro x hx
      rw [List.mem_filterMap]
      exact ⟨some a, List.mem_map.mpr ⟨(x, some a), hx, rfl⟩, rfl⟩
    cases v0 with
    | none =>
      have hnd' : ((QHash.values rest).filterMap id).Nodup := by
        simpa [QHash.values] using hnd
      have hk' : (k, some a) ∈ rest := by simpa using hk
      have hn' : (n, some a) ∈ rest := by simpa using hn
      exact ih hnd' hk' hn'
    | some b =>
      have hnd' : b ∉ (QHash.values rest).filterMap id ∧
          ((QHash.values rest).filterMap id).Nodup := by
        simpa [QHash.values] using hnd
      rcases List.mem_cons.mp hk with h1 | h1 <;> rcases List.mem_cons.mp hn with h2 | h2
      · rw [(Prod.mk.inj h1).1, (Prod.mk.inj h2).1]
      · have hab : a = b := Option.some.inj (Prod.mk.inj h1).2
        exact absurd (hab ▸ hin n h2) hnd'.1
      · have hab : a = b := Option.some.inj (Prod.mk.inj h2).2
        exact absurd (hab ▸ hin k h1) hnd'.1
      · exact ih hnd'.2 h1 h2

theorem VideoModel.collectDevice_none (s : VideoModel) (h : QHash) (n : String)
    (hv : QHash.value s.m_hDevices n = none) :
    VideoModel.collectDevice (s, h) n =
      ({ s with
          m_hDevices := (QHash.index s.m_hDevices n).1
          videoDevices := Heap.store s.videoDevices s.next { id := n }
          next := s.next + 1 },
        QHash.set h n (some s.next)) := by
  unfold VideoModel.collectDevice
  simp only [QHash.index_snd, hv]

theorem VideoModel.collectDevice_some (s : VideoModel) (h : QHash) (n : String) (a : Nat)
    (hv : QHash.value s.m_hDevices n = some a) :
    VideoModel.collectDevice (s, h) n =
      ({ s with m_hDevices := (QHash.index s.m_hDevices n).1 }, QHash.set h n (some a)) := by
  unfold VideoModel.collectDevice
  simp only [QHash.index_snd, hv]

theorem VideoModel.collect_value (L : List String) (s : VideoModel) (h : QHash) (k : String) :
    QHash.value (L.foldl VideoModel.collectDevice (s, h)).1.m_hDevices k =
      QHash.value s.m_hDevices k := by
  induction L generalizing s h with
  | nil => rfl
  | cons n L ih =>
    rw [List.foldl_cons]
    cases hv : QHash.value s.m_hDevices n with
    | none => rw [VideoModel.collectDevice_none s h n hv, ih]; exact QHash.value_index _ _ _
    | some a => rw [VideoModel.collectDevice_some s h n a hv, ih]; exact QHash.value_index _ _ _

theorem VideoModel.collect_next (L : List String) (s : VideoModel) (h : QHash) :
    s.next ≤ (L.foldl VideoModel.collectDevice (s, h)).1.next := by
  induction L generalizing s h with
  | nil => exact Nat.le_refl _
  | cons n L ih =>
    rw [List.foldl_cons]
    cases hv : QHash.value s.m_hDevices n with
    | none =>
      rw [VideoModel.collectDevice_none s h n hv]
      exact Nat.le_trans (Nat.le_succ _) (ih { s with
          m_hDevices := (QHash.index s.m_hDevices n).1
          videoDevices := Heap.store s.videoDevices s.next { id := n }
          next := s.next + 1 } _)
    | some a =>
      rw [VideoModel.collectDevice_some s h n a hv]
      exact ih { s with m_hDevices := (QHash.index s.m_hDevices n).1 } _

theorem VideoModel.collect_heap_below (L : List String) (s : VideoModel) (h : QHash) (a : Nat)
    (ha : a < s.next) :
    Heap.deref (L.foldl VideoModel.collectDevice (s, h)).1.videoDevices a =
      Heap.deref s.videoDevices a := by
  induction L generalizing s h with
  | nil => rfl
  | cons n L ih =>
    rw [List.foldl_cons]
    cases hv : QHash.value s.m_hDevices n with
    | none =>
      rw [VideoModel.collectDevice_none s h n hv, ih { s with
          m_hDevices := (QHash.index s.m_hDevices n).1
          videoDevices := Heap.store s.videoDevices s.next { id := n }
          next := s.next + 1 } _ (Nat.lt_succ_of_lt ha)]
      exact Heap.deref_store_ne _ _ _ _ (Nat.ne_of_lt ha)
    | some b =>
      rw [VideoModel.collectDevice_some s h n b hv, ih { s with m_hDevices := (QHash.index s.m_hDevices n).1 } _ ha]

theorem VideoModel.collect_contains (L : List String) (s : VideoModel) (h : QHash)
    (k : String) :
    QHash.contains (L.foldl VideoModel.collectDevice (s, h)).2 k =
      (QHash.contains h k || decide (k ∈ L)) := by
  induction L generalizing s h with
  | nil => simp
  | cons n L ih =>
    rw [List.foldl_cons]
    cases hv : QHash.value s.m_hDevices n with
    | none =>
      rw [VideoModel.collectDevice_none s h n hv, ih, QHash.contains_set]
      by_cases hk : k = n <;> simp [hk]
    | some b =>
      rw [VideoModel.collectDevice_some s h n b hv, ih, QHash.contains_set]
      by_cases hk : k = n <;> simp [hk]

theorem VideoModel.collect_value_not_mem (L : List String) (s : VideoModel) (h : QHash)
    (k : String) (hk : k ∉ L) :
    QHash.value (L.foldl VideoModel.collectDevice (s, h)).2 k = QHash.value h k := by
  induction L generalizing s h with
  | nil => rfl
  | cons n L ih =>
    have hkn : k ≠ n := fun e => hk (by simp [e])
    have hkL : k ∉ L := fun e => hk (List.mem_cons_of_mem _ e)
    rw [List.foldl_cons]
    cases hv : QHash.value s.m_hDevices n with
    | none =>
      rw [VideoModel.collectDevice_none s h n hv, ih _ _ hkL]
      exact QHash.value_set_ne _ _ _ _ hkn
    | some b =>
      rw [VideoModel.collectDevice_some s h n b hv, ih _ _ hkL]
      exact QHash.value_set_ne _ _ _ _ hkn

theorem VideoModel.collect_value_kept (L : List String) (s : VideoModel) (h : QHash)
    (k : String) (a : Nat) (hk : k ∈ L) (hv : QHash.value s.m_hDevices k = some a) :
    QHash.value (L.foldl VideoModel.collectDevice (s, h)).2 k = some a := by
  induction L generalizing s h with
  | nil => simp at hk
  | cons n L ih =>
    rw [List.foldl_cons]
    by_cases hkL : k ∈ L
    · cases hn : QHash.value s.m_hDevices n with
      | none =>
        rw [VideoModel.collectDevice_none s h n hn]
        exact ih { s with
          m_hDevices := (QHash.index s.m_hDevices n).1
          videoDevices := Heap.store s.videoDevices s.next { id := n }
          next := s.next + 1 } _ hkL (by rw [QHash.value_index]; exact hv)
      | some b =>
        rw [VideoModel.collectDevice_some s h n b hn]
        exact ih { s with m_hDevices := (QHash.index s.m_hDevices n).1 } _ hkL (by rw [QHash.value_index]; exact hv)
    · have hkn : k = n := by
        rcases List.mem_cons.mp hk with e | e
        · exact e
        · exact absurd e hkL
      subst hkn
      rw [VideoModel.collectDevice_some s h k a hv, VideoModel.collect_value_not_mem _ _ _ _ hkL]
      exact QHash.value_set_self _ _ _

theorem VideoModel.collect_value_new (L : List String) (s : VideoModel) (h : QHash)
    (k : String) (hk : k ∈ L) (hv : QHash.value s.m_hDevices k = none) :
    ∃ a, s.next ≤ a ∧
      QHash.value (L.foldl VideoModel.collectDevice (s, h)).2 k = some a ∧
      Heap.deref (L.foldl VideoModel.collectDevice (s, h)).1.videoDevices a =
        some { id := k } := by
  induction L generalizing s h with
  | nil => simp at hk
  | cons n L ih =>
    rw [List.foldl_cons]
    by_cases hkL : k ∈ L
    · cases hn : QHash.value s.m_hDevices n with
      | none =>
        rw [VideoModel.collectDevice_none s h n hn]
        obtain ⟨a, ha, h1, h2⟩ := ih
          { s with
            m_hDevices := (QHash.index s.m_hDevices n).1
            videoDevices := Heap.store s.videoDevices s.next { id := n }
            next := s.next + 1 } (QHash.set h n (some s.next)) hkL
          (by rw [QHash.value_index]; exact hv)
        exact ⟨a, Nat.le_of_succ_le ha, h1, h2⟩
      | some b =>
        rw [VideoModel.collectDevice_some s h n b hn]
        exact ih { s with m_hDevices := (QHash.index s.m_hDevices n).1 } _ hkL (by rw [QHash.value_index]; exact hv)
    · have hkn : k = n := by
        rcases List.mem_cons.mp hk with e | e
        · exact e
        · exact absurd e hkL
      subst hkn
      rw [VideoModel.collectDevice_none s h k hv]
      refine ⟨s.next, Nat.le_refl _, ?_, ?_⟩
      · rw [VideoModel.collect_value_not_mem _ _ _ _ hkL]
        exact QHash.value_set_self _ _ _
      · rw [VideoModel.collect_heap_below _ _ _ _ (Nat.lt_succ_self _)]
        exact Heap.deref_store_self _ _ _

theorem VideoModel.collect_entries (L : List String) (s : VideoModel) (h : QHash)
    (k : String) (a : Nat)
    (hmem : (k, some a) ∈ (L.foldl VideoModel.collectDevice (s, h)).2) :
    (k, some a) ∈ h ∨ (k ∈ L ∧ QHash.value s.m_hDevices k = some a) ∨ s.next ≤ a := by
  induction L generalizing s h with
  | nil => exact Or.inl hmem
  | cons n L ih =>
    rw [List.foldl_cons] at hmem
    cases hn : QHash.value s.m_hDevices n with
    | none =>
      rw [VideoModel.collectDevice_none s h n hn] at hmem
      rcases ih _ _ hmem with h1 | h1 | h1
      · rcases QHash.mem_set _ _ _ _ h1 with h2 | h2
        · exact Or.inl h2
        · exact Or.inr (Or.inr (Nat.le_of_eq (Option.some.inj (Prod.mk.inj h2).2).symm))
      · refine Or.inr (Or.inl ⟨List.mem_cons_of_mem _ h1.1, ?_⟩)
        have := h1.2
        rwa [QHash.value_index] at this
      · exact Or.inr (Or.inr (Nat.le_of_succ_le h1))
    | some b =>
      rw [VideoModel.collectDevice_some s h n b hn] at hmem
      rcases ih _ _ hmem with h1 | h1 | h1
      · rcases QHash.mem_set _ _ _ _ h1 with h2 | h2
        · exact Or.inl h2
        · have hk : k = n := (Prod.mk.inj h2).1
          have hab : a = b := Option.some.inj (Prod.mk.inj h2).2
          exact Or.inr (Or.inl ⟨by simp [hk], by rw [hk, hab]; exact hn⟩)
      · refine Or.inr (Or.inl ⟨List.mem_cons_of_mem _ h1.1, ?_⟩)
        have := h1.2
        rwa [QHash.value_index] at this
      · exact Or.inr (Or.inr h1)

theorem VideoModel.collect_devices_eq (L : List String) (s : VideoModel) (h : QHash) :
    ∃ ex : QHash, (L.foldl VideoModel.collectDevice (s, h)).1.m_hDevices = s.m_hDevices ++ ex ∧
      ∀ e ∈ ex, e.2 = none := by
  induction L generalizing s h with
  | nil => exact ⟨[], by simp, by simp⟩
  | cons n L ih =>
    rw [List.foldl_cons]
    obtain ⟨ex0, hex0, hnone0⟩ := QHash.index_fst_eq s.m_hDevices n
    cases hn : QHash.value s.m_hDevices n with
    | none =>
      rw [VideoModel.collectDevice_none s h n hn]
      obtain ⟨ex, hex, hnone⟩ := ih
        { s with
          m_hDevices := (QHash.index s.m_hDevices n).1
          videoDevices := Heap.store s.videoDevices s.next { id := n }
          next := s.next + 1 } (QHash.set h n (some s.next))
      refine ⟨ex0 ++ ex, ?_, ?_⟩
      · rw [hex]; simp only [hex0, List.append_assoc]
      · intro e he
        rcases List.mem_append.mp he with h1 | h1
        · exact hnone0 e h1
        · exact hnone e h1
    | some b =>
      rw [VideoModel.collectDevice_some s h n b hn]
      obtain ⟨ex, hex, hnone⟩ := ih
        { s with m_hDevices := (QHash.index s.m_hDevices n).1 } (QHash.set h n (some b))
      refine ⟨ex0 ++ ex, ?_, ?_⟩
      · rw [hex]; simp only [hex0, List.append_assoc]
      · intro e he
        rcases List.mem_append.mp he with h1 | h1
        · exact hnone0 e h1
        · exact hnone e h1

theorem VideoModel.deleteStale_spec (dh : QHash) (vs : List Ptr) (heap : Heap VideoDevice)
    (hnd : (vs.filterMap id).Nodup)
    (hlive : ∀ a, some a ∈ vs → ∃ d, Heap.deref heap a = some d) :
    ∃ heap1, VideoModel.deleteStale dh heap vs = some heap1 ∧
      ∀ a, Heap.deref heap1 a =
        if some a ∈ vs ∧ QHash.key dh (some a) = "" then none else Heap.deref heap a := by
  induction vs generalizing heap with
  | nil => exact ⟨heap, rfl, by simp⟩
  | cons v rest ih =>
    cases v with
    | none =>
      have hnd1 : (rest.filterMap id).Nodup := by simpa using hnd
      obtain ⟨heap1, h1, h2⟩ := ih heap hnd1
        (fun a ha => hlive a (List.mem_cons_of_mem _ ha))
      refine ⟨heap1, by simpa [VideoModel.deleteStale] using h1, ?_⟩
      intro a
      rw [h2 a]
      simp
    | some b =>
      have hnd1 : b ∉ rest.filterMap id ∧ (rest.filterMap id).Nodup := by simpa using hnd
      have hb : some b ∉ rest := by
        intro hmem
        exact hnd1.1 (List.mem_filterMap.mpr ⟨some b, hmem, rfl⟩)
      by_cases hkey : QHash.key dh (some b) = ""
      · obtain ⟨d, hd⟩ := hlive b (by simp)
        obtain ⟨heap1, h1, h2⟩ := ih (Heap.free heap b) hnd1.2
          (fun a ha => by
            have hab : a ≠ b := fun e => hb (e ▸ ha)
            rw [Heap.deref_free_ne heap b a hab]
            exact hlive a (List.mem_cons_of_mem _ ha))
        refine ⟨heap1, by simp [VideoModel.deleteStale, hkey, hd, h1], ?_⟩
        intro a
        rw [h2 a]
        by_cases hab : a = b
        · subst hab
          simp [hb, hkey, Heap.deref_free_self]
        · have hab2 : ¬ b = a := fun e => hab e.symm
          simp [hab, hab2, Heap.deref_free_ne heap b a hab]
      · obtain ⟨heap1, h1, h2⟩ := ih heap hnd1.2
          (fun a ha => hlive a (List.mem_cons_of_mem _ ha))
        refine ⟨heap1, by simp [VideoModel.deleteStale, hkey, h1], ?_⟩
        intro a
        rw [h2 a]
        by_cases hab : a = b
        · subst hab
          simp [hb, hkey]
        · have hab2 : ¬ b = a := fun e => hab e.symm
          simp [hab, hab2]

theorem QHash.values_append_nones (h ex : QHash) (hex : ∀ e ∈ ex, e.2 = none) :
    (QHash.values (h ++ ex)).filterMap id = (QHash.values h).filterMap id ∧
    ∀ a, some a ∈ QHash.values (h ++ ex) → some a ∈ QHash.values h := by
  have hnone : ∀ v ∈ QHash.values ex, v = none := by
    intro v hv
    obtain ⟨e, he, rfl⟩ := List.mem_map.mp hv
    exact hex e he
  have hfm : (QHash.values ex).filterMap id = [] := by
    rw [List.filterMap_eq_nil_iff]
    intro v hv
    rw [hnone v hv]
    rfl
  refine ⟨?_, ?_⟩
  · simp only [QHash.values, List.map_append, List.filterMap_append] at hfm ⊢
    rw [hfm, List.append_nil]
  · intro a ha
    simp only [QHash.values, List.map_append, List.mem_append] at ha ⊢
    rcases ha with ha | ha
    · exact ha
    · exact absurd (hnone _ ha) (by simp)

theorem QHash.mem_values_of_value (h : QHash) (k : String) (a : Nat)
    (hv : QHash.value h k = some a) : some a ∈ QHash.values h :=
  List.mem_map.mpr ⟨(k, some a), QHash.value_mem h k a hv, rfl⟩

/-- C8, counterexample. The local map holds `cam0` and the daemon lists only `cam1`: the
sizes match, so `devices()` returns the cached values and the map still names `cam0`, not
`cam1`. -/
theorem VideoModel.devices_same_size_keeps_stale :
    VideoModel.devices Env.otherCamera VideoModel.oneCamera =
      some (VideoModel.oneCamera, [some 0]) ∧
    QHash.keys VideoModel.oneCamera.m_hDevices = ["cam0"] ∧
    Env.otherCamera.deviceList = ["cam1"] ∧
    ¬ (∀ n, n ∈ QHash.keys VideoModel.oneCamera.m_hDevices ↔ n ∈ Env.otherCamera.deviceList) := by
  refine ⟨by decide, by decide, rfl, ?_⟩
  intro hall
  exact absurd ((hall "cam1").mpr (by decide)) (by decide)

/-- C8, amended. On a well-formed device map: when the daemon's list has as many entries as
the local map, `devices()` leaves the registry as it is and returns the map's values.
Otherwise it completes and returns the values of the reconciled map, whose names are exactly
the names of the daemon list; a listed name that had a device keeps the same device object
(which stays live when the name is not empty); a listed name that had no device gets a newly
allocated `VideoDevice` of that name; and every device stored under a name that is not
listed has been destroyed and is no longer in the map. -/
theorem VideoModel.devices_reconciles (env : Env) (m : VideoModel)
    (hwf : VideoModel.DevicesWellFormed m) :
    (env.deviceList.length = QHash.size m.m_hDevices →
      VideoModel.devices env m = some (m, QHash.values m.m_hDevices)) ∧
    (env.deviceList.length ≠ QHash.size m.m_hDevices →
      ∃ m1, VideoModel.devices env m = some (m1, QHash.values m1.m_hDevices) ∧
        (∀ n, n ∈ QHash.keys m1.m_hDevices ↔ n ∈ env.deviceList) ∧
        (∀ n a, n ∈ env.deviceList → QHash.value m.m_hDevices n = some a →
          QHash.value m1.m_hDevices n = some a) ∧
        (∀ n a, n ∈ env.deviceList → n ≠ "" → QHash.value m.m_hDevices n = some a →
          Heap.deref m1.videoDevices a = Heap.deref m.videoDevices a) ∧
        (∀ n, n ∈ env.deviceList → QHash.value m.m_hDevices n = none →
          ∃ a, m.next ≤ a ∧ QHash.value m1.m_hDevices n = some a ∧
            Heap.deref m1.videoDevices a = some { id := n }) ∧
        (∀ n a, n ∉ env.deviceList → QHash.value m.m_hDevices n = some a →
          Heap.deref m1.videoDevices a = none ∧ some a ∉ QHash.values m1.m_hDevices)) := by
  obtain ⟨hnd, hlive, hfresh⟩ := hwf
  refine ⟨fun hsize => by simp [VideoModel.devices, hsize], fun hsize => ?_⟩
  have hbelow : ∀ a, some a ∈ QHash.values m.m_hDevices → a < m.next := by
    intro a ha
    obtain ⟨d, hd⟩ := hlive a ha
    exact hfresh a d hd
  obtain ⟨ex, hex, hexnone⟩ := VideoModel.collect_devices_eq env.deviceList m []
  obtain ⟨hfm, hmemv⟩ := QHash.values_append_nones m.m_hDevices ex hexnone
  obtain ⟨heap1, hdel, hderef⟩ := VideoModel.deleteStale_spec
    (env.deviceList.foldl VideoModel.collectDevice (m, [])).2
    (QHash.values (env.deviceList.foldl VideoModel.collectDevice (m, [])).1.m_hDevices)
    (env.deviceList.foldl VideoModel.collectDevice (m, [])).1.videoDevices
    (by rw [hex, hfm]; exact hnd)
    (by
      intro a ha
      rw [hex] at ha
      have ha1 := hmemv a ha
      rw [VideoModel.collect_heap_below _ _ _ _ (hbelow a ha1)]
      exact hlive a ha1)
  have hentry : ∀ k a, (k, some a) ∈ (env.deviceList.foldl VideoModel.collectDevice (m, [])).2 →
      (k ∈ env.deviceList ∧ QHash.value m.m_hDevices k = some a) ∨ m.next ≤ a := by
    intro k a hk
    rcases VideoModel.collect_entries _ _ _ _ _ hk with h1 | h1 | h1
    · simp at h1
    · exact Or.inl h1
    · exact Or.inr h1
  unfold VideoModel.devices
  rw [if_neg hsize, hdel]
  refine ⟨_, rfl, ?_, ?_, ?_, ?_, ?_⟩
  · intro n
    rw [← QHash.contains_iff_mem_keys]
    simp [VideoModel.collect_contains, QHash.contains]
  · intro n a hn hv
    exact VideoModel.collect_value_kept _ _ _ _ _ hn hv
  · intro n a hn hne hv
    have ha1 : some a ∈ QHash.values m.m_hDevices := QHash.mem_values_of_value _ _ _ hv
    have hkept := VideoModel.collect_value_kept env.deviceList m [] n a hn hv
    have hkm := QHash.key_mem _ _ _ (QHash.value_mem _ _ _ hkept)
    have hkeyne : QHash.key (env.deviceList.foldl VideoModel.collectDevice (m, [])).2 (some a)
        ≠ "" := by
      rcases hentry _ _ hkm with h1 | h1
      · have := QHash.ptr_unique m.m_hDevices _ n a hnd (QHash.value_mem _ _ _ h1.2)
          (QHash.value_mem _ _ _ hv)
        rw [this]
        exact hne
      · exact absurd (hbelow a ha1) (Nat.not_lt.mpr h1)
    show Heap.deref heap1 a = _
    rw [hderef a, if_neg (fun h => hkeyne h.2),
      VideoModel.collect_heap_below _ _ _ _ (hbelow a ha1)]
  · intro n hn hv
    obtain ⟨a, ha, h1, h2⟩ := VideoModel.collect_value_new env.deviceList m [] n hn hv
    refine ⟨a, ha, h1, ?_⟩
    show Heap.deref heap1 a = _
    rw [hderef a, if_neg, h2]
    intro hcon
    have hin := hcon.1
    rw [hex] at hin
    exact absurd (hbelow a (hmemv a hin)) (Nat.not_lt.mpr ha)
  · intro n a hn hv
    have ha1 : some a ∈ QHash.values m.m_hDevices := QHash.mem_values_of_value _ _ _ hv
    have hnoentry : ∀ k,
        (k, some a) ∉ (env.deviceList.foldl VideoModel.collectDevice (m, [])).2 := by
      intro k hk
      rcases hentry _ _ hk with h1 | h1
      · have := QHash.ptr_unique m.m_hDevices k n a hnd (QHash.value_mem _ _ _ h1.2)
          (QHash.value_mem _ _ _ hv)
        exact hn (this ▸ h1.1)
      · exact absurd (hbelow a ha1) (Nat.not_lt.mpr h1)
    refine ⟨?_, ?_⟩
    · show Heap.deref heap1 a = none
      rw [hderef a, if_pos]
      refine ⟨?_, QHash.key_eq_empty _ _ hnoentry⟩
      rw [hex]
      simp only [QHash.values, List.map_append, List.mem_append]
      exact Or.inl ha1
    · intro hmem
      obtain ⟨e, he, heq⟩ := List.mem_map.mp hmem
      obtain ⟨k, v⟩ := e
      simp only at heq
      subst heq
      exact hnoentry k he

/-- C8, witness: the local map holds `cam0` and the daemon lists `cam0` and `cam1`. -/
theorem VideoModel.devices_reconciles_witness :
    (Env.twoCameras.deviceList.length = QHash.size VideoModel.oneCamera.m_hDevices →
      VideoModel.devices Env.twoCameras VideoModel.oneCamera =
        some (VideoModel.oneCamera, QHash.values VideoModel.oneCamera.m_hDevices)) ∧
    (Env.twoCameras.deviceList.length ≠ QHash.size VideoModel.oneCamera.m_hDevices →
      ∃ m1, VideoModel.devices Env.twoCameras VideoModel.oneCamera =
          some (m1, QHash.values m1.m_hDevices) ∧
        (∀ n, n ∈ QHash.keys m1.m_hDevices ↔ n ∈ Env.twoCameras.deviceList) ∧
        (∀ n a, n ∈ Env.twoCameras.deviceList →
          QHash.value VideoModel.oneCamera.m_hDevices n = some a →
          QHash.value m1.m_hDevices n = some a) ∧
        (∀ n a, n ∈ Env.twoCameras.deviceList → n ≠ "" →
          QHash.value VideoModel.oneCamera.m_hDevices n = some a →
          Heap.deref m1.videoDevices a = Heap.deref VideoModel.oneCamera.videoDevices a) ∧
        (∀ n, n ∈ Env.twoCameras.deviceList →
          QHash.value VideoModel.oneCamera.m_hDevices n = none →
          ∃ a, VideoModel.oneCamera.next ≤ a ∧ QHash.value m1.m_hDevices n = some a ∧
            Heap.deref m1.videoDevices a = some { id := n }) ∧
        (∀ n a, n ∉ Env.twoCameras.deviceList →
          QHash.value VideoModel.oneCamera.m_hDevices n = some a →
          Heap.deref m1.videoDevices a = none ∧ some a ∉ QHash.values m1.m_hDevices)) :=
  VideoModel.devices_reconciles Env.twoCameras VideoModel.oneCamera
    ⟨by decide,
     by
      intro a ha
      have ha0 : a = 0 := by simpa [VideoModel.oneCamera, QHash.values] using ha
      subst ha0
      exact ⟨{ id := "cam0" }, rfl⟩,
     by
      intro a d hd
      by_cases ha : 0 = a
      · subst ha; decide
      · simp [VideoModel.oneCamera, Heap.deref, ha] at hd⟩

theorem FallbackPersonBackendEditor.addExistingSeq_mediator (fs : FileSystem)
    (e : FallbackPersonBackendEditor) (ps : List Person) :
    (FallbackPersonBackendEditor.addExistingSeq fs e ps).2.mediator.added =
      e.mediator.added ++ ps := by
  induction ps generalizing e with
  | nil => simp [FallbackPersonBackendEditor.addExistingSeq]
  | cons p ps ih =>
    simp only [FallbackPersonBackendEditor.addExistingSeq, ih]
    simp [FallbackPersonBackendEditor.addExisting, CollectionMediator.addItem]

/-- C9, counterexample. `/contacts/A.vcf` cannot be opened for writing; `save` of the person
with uid `A` on the editor rooted at `/contacts` writes nothing and still returns true. -/
theorem FallbackPersonBackendEditor.save_true_on_open_failure :
    FallbackPersonBackendEditor.sample.m_Path ++ "/" ++ Person.alice.uid ++ ".vcf"
      ∈ FileSystem.lockedCard.locked ∧
    (FallbackPersonBackendEditor.sample.save FileSystem.lockedCard Person.alice).2.2 =
      FileSystem.lockedCard ∧
    (FallbackPersonBackendEditor.sample.save FileSystem.lockedCard Person.alice).1 = true := by
  decide

/-- C9, amended. `save()`, `clear()` and `load()` return true whatever the file system and
the parser do (there is no failure return). `save()` and `clear()` leave the items pushed to
the mediator unchanged, and `load()` pushes exactly the persons the parser returned, so the
master model is unchanged when the directory could not be read and the parser returned
nothing. -/
theorem FallbackPersonCollection.io_failure_not_reported (c : FallbackPersonCollection)
    (fs : FileSystem) (item : Person) (vcfNames : List String)
    (loadDir : String → List Person × Bool) :
    (c.editor.save fs item).1 = true ∧
    (c.editor.save fs item).2.1.mediator = c.editor.mediator ∧
    (c.clear fs vcfNames).1 = true ∧
    (c.clear fs vcfNames).2.1.editor.mediator = c.editor.mediator ∧
    (c.load fs loadDir).1 = true ∧
    (c.load fs loadDir).2.editor.mediator.added =
      c.editor.mediator.added ++ (loadDir c.m_Path).1 ∧
    ((loadDir c.m_Path).1 = [] → (c.load fs loadDir).2.editor.mediator = c.editor.mediator) := by
  have hload := FallbackPersonBackendEditor.addExistingSeq_mediator fs c.editor
    (loadDir c.m_Path).1
  refine ⟨rfl, rfl, rfl, rfl, rfl, hload, ?_⟩
  intro hnil
  simp [FallbackPersonCollection.load, hnil, FallbackPersonBackendEditor.addExistingSeq]

theorem QString.split_structure (p : List Char) :
    ∃ first rest, QString.split '/' p = first :: rest ∧ '/' ∉ first ∧
      ((rest = [] ∧ p = first) ∨
        (rest ≠ [] ∧ '/' ∉ rest.getLastD [] ∧ ∃ pre, p = pre ++ '/' :: rest.getLastD [])) := by
  induction p with
  | nil => exact ⟨[], [], rfl, by simp, Or.inl ⟨rfl, rfl⟩⟩
  | cons c cs ih =>
    obtain ⟨f, r, hsplit, hf, hcase⟩ := ih
    by_cases hc : c = '/'
    · subst hc
      refine ⟨[], f :: r, by simp [QString.split, hsplit], by simp, Or.inr ⟨by simp, ?_⟩⟩
      rcases hcase with ⟨hr, hcs⟩ | ⟨hr, hlast, pre, hpre⟩
      · subst hr
        refine ⟨by simpa [List.getLastD_cons] using hf, [], ?_⟩
        simp [List.getLastD_cons, hcs]
      · have hl : (f :: r).getLastD [] = r.getLastD [] := by
          cases r with
          | nil => exact absurd rfl hr
          | cons x xs => simp [List.getLastD_cons]
        rw [hl]
        exact ⟨hlast, '/' :: pre, by rw [hpre]; rfl⟩
    · refine ⟨c :: f, r, by simp [QString.split, hc, hsplit], ?_, ?_⟩
      · intro hmem
        rcases List.mem_cons.mp hmem with h1 | h1
        · exact hc h1.symm
        · exact hf h1
      · rcases hcase with ⟨hr, hcs⟩ | ⟨hr, hlast, pre, hpre⟩
        · exact Or.inl ⟨hr, by rw [hcs]⟩
        · exact Or.inr ⟨hr, hlast, c :: pre, by rw [hpre]; rfl⟩

/-- C10. For every root path, the last segment `seg` of the path (it contains no `/`, and
the path is `seg` itself or ends in `/` followed by `seg`) determines `name()`: the literal
`"vCard"` when `seg` is empty, and otherwise `seg` with its first character replaced by its
upper case and the other characters unchanged. -/
theorem FallbackPersonCollection.name_of_last_segment (toUpper : Char → Char)
    (mediator : CollectionMediator) (path : String) (parent : Option String) :
    ∃ seg : List Char, '/' ∉ seg ∧
      (path.data = seg ∨ ∃ pre, path.data = pre ++ '/' :: seg) ∧
      (seg = [] →
        (FallbackPersonCollection.create toUpper mediator path parent).name = "vCard") ∧
      (∀ c cs, seg = c :: cs →
        (FallbackPersonCollection.create toUpper mediator path parent).name =
          String.mk (toUpper c :: cs)) := by
  obtain ⟨f, r, hsplit, hf, hcase⟩ := QString.split_structure path.data
  rcases hcase with ⟨hr, hp⟩ | ⟨hr, hlast, pre, hpre⟩
  · subst hr
    refine ⟨f, hf, Or.inl hp, ?_, ?_⟩
    · intro hnil
      simp [FallbackPersonCollection.create, FallbackPersonCollection.name,
        FallbackPersonCollectionPrivate.deriveName, hsplit, List.getLastD_cons, hnil]
    · intro c cs hseg
      simp [FallbackPersonCollection.create, FallbackPersonCollection.name,
        FallbackPersonCollectionPrivate.deriveName, hsplit, List.getLastD_cons, hseg]
  · have hl : (f :: r).getLastD [] = r.getLastD [] := by
      cases r with
      | nil => exact absurd rfl hr
      | cons x xs => simp [List.getLastD_cons]
    refine ⟨r.getLastD [], hlast, Or.inr ⟨pre, hpre⟩, ?_, ?_⟩
    · intro hnil
      simp only [FallbackPersonCollection.create, FallbackPersonCollection.name,
        FallbackPersonCollectionPrivate.deriveName, hsplit, hl, hnil]
    · intro c cs hseg
      simp only [FallbackPersonCollection.create, FallbackPersonCollection.name,
        FallbackPersonCollectionPrivate.deriveName, hsplit, hl, hseg]

theorem FallbackPersonCollectionPrivate.loadAsync_registers (toUpper : Char → Char)
    (c : FallbackPersonCollection) (subdirs : List String)
    (registered : List FallbackPersonCollection) :
    FallbackPersonCollectionPrivate.loadAsync toUpper c subdirs registered =
      registered ++ (QDir.entryListAllDirs subdirs).map (fun dir =>
        FallbackPersonCollection.create toUpper c.editor.mediator (c.m_Path ++ "/" ++ dir)
          (some c.m_Path)) := by
  unfold FallbackPersonCollectionPrivate.loadAsync
  generalize QDir.entryListAllDirs subdirs = entries
  induction entries generalizing registered with
  | nil => simp
  | cons e es ih =>
    rw [List.foldl_cons, ih]
    simp [PersonModel.addCollection]

/-- C11, the code at the failing input. On a root `/contacts` with no `.vcf` file and no
subdirectory, `load()` returns true, adds no item and posts `loadAsync` once; `loadAsync`
then registers two child collections, for the listing entries `.` and `..`, with paths
`/contacts/.` and `/contacts/..` and this collection as parent. -/
theorem FallbackPersonCollection.load_empty_root_registers_dot_entries :
    (FallbackPersonCollection.sample.load FileSystem.empty VCardUtils.noCards).1 = true ∧
    (FallbackPersonCollection.sample.load FileSystem.empty VCardUtils.noCards).2.editor.items
      = [] ∧
    (FallbackPersonCollection.sample.load FileSystem.empty
      VCardUtils.noCards).2.editor.mediator.added = [] ∧
    (FallbackPersonCollection.sample.load FileSystem.empty
      VCardUtils.noCards).2.pendingLoadAsync = 1 ∧
    (FallbackPersonCollectionPrivate.loadAsync Char.toUpper
      (FallbackPersonCollection.sample.load FileSystem.empty VCardUtils.noCards).2 [] []).map
        (fun child => (child.m_Path, child.parent)) =
      [("/contacts/.", some "/contacts"), ("/contacts/..", some "/contacts")] := by
  refine ⟨rfl, rfl, rfl, rfl, ?_⟩
  rw [FallbackPersonCollectionPrivate.loadAsync_registers]
  rfl

theorem QHash.keys_index_nodup (h : QHash) (k : String) (hnd : (QHash.keys h).Nodup) :
    (QHash.keys (QHash.index h k).1).Nodup := by
  unfold QHash.index
  cases hc : QHash.contains h k
  · have hk : k ∉ QHash.keys h := by
      intro hmem
      rw [← QHash.contains_iff_mem_keys, hc] at hmem
      exact Bool.false_ne_true hmem
    simp only [Bool.false_eq_true, if_false, QHash.keys, List.map_append, List.map_cons,
      List.map_nil]
    exact List.Nodup.append hnd (List.nodup_singleton k)
      (by
        intro x hx hx1
        rw [List.mem_singleton] at hx1
        exact hk (hx1 ▸ hx))
  · simpa using hnd

theorem QHash.mem_index_some (h : QHash) (k k1 : String) (a : Nat) :
    (k1, some a) ∈ (QHash.index h k).1 ↔ (k1, some a) ∈ h := by
  unfold QHash.index
  cases hc : QHash.contains h k <;> simp

theorem QHash.keys_set_nodup (h : QHash) (k : String) (v : Ptr)
    (hnd : (QHash.keys h).Nodup) : (QHash.keys (QHash.set h k v)).Nodup := by
  unfold QHash.set
  cases hc : QHash.contains h k
  · have hk : k ∉ QHash.keys h := by
      intro hmem
      rw [← QHash.contains_iff_mem_keys, hc] at hmem
      exact Bool.false_ne_true hmem
    simp only [Bool.false_eq_true, if_false, QHash.keys, List.map_append, List.map_cons,
      List.map_nil]
    exact List.Nodup.append hnd (List.nodup_singleton k)
      (by
        intro x hx hx1
        rw [List.mem_singleton] at hx1
        exact hk (hx1 ▸ hx))
  · have hkeys : QHash.keys (h.map (fun e => if e.1 = k then (k, v) else e)) = QHash.keys h := by
      unfold QHash.keys
      rw [List.map_map]
      apply List.map_congr_left
      intro e _
      by_cases he : e.1 = k
      · simp [he]
      · simp [he]
    simp only [if_true]
    rw [hkeys]
    exact hnd

theorem QHash.nodup_somes (h : QHash) (hk : (QHash.keys h).Nodup)
    (hu : ∀ k n a, (k, some a) ∈ h → (n, some a) ∈ h → k = n) :
    ((QHash.values h).filterMap id).Nodup := by
  induction h with
  | nil => simp [QHash.values]
  | cons e rest ih =>
    obtain ⟨k0, v0⟩ := e
    have hk1 : k0 ∉ QHash.keys rest ∧ (QHash.keys rest).Nodup := by
      simpa [QHash.keys] using hk
    have hrest := ih hk1.2
      (fun k n a h1 h2 => hu k n a (List.mem_cons_of_mem _ h1) (List.mem_cons_of_mem _ h2))
    cases v0 with
    | none => simpa [QHash.values] using hrest
    | some b =>
      have hb : b ∉ (QHash.values rest).filterMap id := by
        intro hmem
        obtain ⟨v, hv, hvb⟩ := List.mem_filterMap.mp hmem
        obtain ⟨e, he, hev⟩ := List.mem_map.mp hv
        obtain ⟨k1, v1⟩ := e
        simp only at hev
        subst hev
        simp only [id] at hvb
        subst hvb
        have := hu k1 k0 b (List.mem_cons_of_mem _ he) (by simp)
        exact hk1.1 (this ▸ List.mem_map.mpr ⟨(k1, some b), he, rfl⟩)
      simpa [QHash.values] using And.intro hb hrest

theorem VideoModel.DeviceMapInv.of_index (m m1 : VideoModel) (id : String)
    (hinv : VideoModel.DeviceMapInv m)
    (hD : m1.m_hDevices = (QHash.index m.m_hDevices id).1)
    (hV : m1.videoDevices = m.videoDevices) (hN : m.next ≤ m1.next) :
    VideoModel.DeviceMapInv m1 := by
  obtain ⟨hk, hu, hl, hf⟩ := hinv
  refine ⟨?_, ?_, ?_, ?_⟩
  · rw [hD]; exact QHash.keys_index_nodup _ _ hk
  · intro k n a h1 h2
    rw [hD, QHash.mem_index_some] at h1 h2
    exact hu k n a h1 h2
  · intro k a h1
    rw [hD, QHash.mem_index_some] at h1
    rw [hV]
    exact hl k a h1
  · intro a d hd
    rw [hV] at hd
    exact Nat.lt_of_lt_of_le (hf a d hd) hN

theorem VideoModel.ensureRenderer_frame (m m2 : VideoModel) (id shmPath : String)
    (res : Resolution) (h : VideoModel.ensureRenderer m id shmPath res = some m2) :
    m2.m_hDevices = m.m_hDevices ∧ m2.videoDevices = m.videoDevices ∧ m.next ≤ m2.next := by
  unfold VideoModel.ensureRenderer at h
  cases hv : (QHash.index m.m_lRenderers id).2 with
  | none =>
    simp only [hv, Option.some.injEq] at h
    rw [← h]
    exact ⟨rfl, rfl, Nat.le_succ _⟩
  | some a =>
    simp only [hv] at h
    cases hd : Heap.deref m.renderers a with
    | none => simp [hd] at h
    | some r =>
      simp only [hd, Option.some.injEq] at h
      rw [← h]
      exact ⟨rfl, rfl, Nat.le_refl _⟩

theorem VideoModel.startRendering_frame (m m2 : VideoModel) (id : String)
    (h : VideoModel.startRendering m id = some m2) :
    m2.m_hDevices = m.m_hDevices ∧ m2.videoDevices = m.videoDevices ∧ m2.next = m.next := by
  unfold VideoModel.startRendering at h
  cases hv : (QHash.index m.m_lRenderers id).2 with
  | none => simp [hv] at h
  | some a =>
    simp only [hv] at h
    cases hd : Heap.deref m.renderers a with
    | none => simp [hd] at h
    | some r =>
      simp only [hd, Option.some.injEq] at h
      rw [← h]
      exact ⟨rfl, rfl, rfl⟩

theorem VideoModel.stopRendering_frame (m m2 : VideoModel) (id : String)
    (h : VideoModel.stopRendering m id = some m2) :
    m2.m_hDevices = m.m_hDevices ∧ m2.videoDevices = m.videoDevices ∧ m2.next = m.next := by
  unfold VideoModel.stopRendering at h
  cases hv : (QHash.index m.m_lRenderers id).2 with
  | none =>
    simp only [hv, Option.some.injEq] at h
    rw [← h]
    exact ⟨rfl, rfl, rfl⟩
  | some a =>
    simp only [hv] at h
    cases hd : Heap.deref m.renderers a with
    | none => simp [hd] at h
    | some r =>
      simp only [hd, Option.some.injEq] at h
      rw [← h]
      exact ⟨rfl, rfl, rfl⟩

theorem VideoModel.emitOnDevice_frame (m m2 : VideoModel) (dev : Ptr) (sig : Nat → Signal)
    (h : VideoModel.emitOnDevice m dev sig = some m2) :
    m2.m_hDevices = m.m_hDevices ∧ m2.videoDevices = m.videoDevices ∧ m2.next = m.next := by
  unfold VideoModel.emitOnDevice at h
  cases dev with
  | none =>
    simp only [Option.some.injEq] at h
    rw [← h]
    exact ⟨rfl, rfl, rfl⟩
  | some d =>
    simp only at h
    cases hd : Heap.deref m.videoDevices d with
    | none => simp [hd] at h
    | some o =>
      simp only [hd, Option.some.injEq] at h
      rw [← h]
      exact ⟨rfl, rfl, rfl⟩

@[simp] theorem VideoModel.announceStop_next (m : VideoModel) (id : String) (r : Ptr) :
    (VideoModel.announceStop m id r).next = m.next := by
  unfold VideoModel.announceStop; split <;> rfl

theorem VideoModel.startedDecoding_frame (env : Env) (m m1 : VideoModel) (id shmPath : String)
    (w h : Int) (hs : VideoModel.startedDecoding env m id shmPath w h = some m1) :
    m1.m_hDevices = (QHash.index m.m_hDevices id).1 ∧ m1.videoDevices = m.videoDevices ∧
      m.next ≤ m1.next := by
  unfold VideoModel.startedDecoding at hs
  cases hsel : VideoModel.selectResolution env m w h with
  | none => simp [hsel] at hs
  | some p =>
    obtain ⟨m0, res⟩ := p
    have hm0 := VideoModel.selectResolution_frame env m m0 w h res hsel
    have h0D : m0.m_hDevices = m.m_hDevices := by rw [hm0]
    have h0V : m0.videoDevices = m.videoDevices := by rw [hm0]
    have h0N : m0.next = m.next := by rw [hm0]
    simp only [hsel] at hs
    cases hens : VideoModel.ensureRenderer m0 id shmPath res with
    | none => simp [hens] at hs
    | some m2 =>
      obtain ⟨h2D, h2V, h2N⟩ := VideoModel.ensureRenderer_frame m0 m2 id shmPath res hens
      simp only [hens] at hs
      cases hst : VideoModel.startRendering m2 id with
      | none => simp [hst] at hs
      | some m3 =>
        obtain ⟨h3D, h3V, h3N⟩ := VideoModel.startRendering_frame m2 m3 id hst
        simp only [hst] at hs
        cases hem : VideoModel.emitOnDevice (VideoModel.device m3 id).1
            (VideoModel.device m3 id).2
            (fun d => Signal.renderingStarted d (QHash.value m3.m_lRenderers id)) with
        | none => simp [hem] at hs
        | some m4 =>
          obtain ⟨h4D, h4V, h4N⟩ := VideoModel.emitOnDevice_frame _ m4 _ _ hem
          simp only [hem, Option.some.injEq] at hs
          rw [← hs]
          refine ⟨?_, ?_, ?_⟩
          · rw [VideoModel.announceStart_m_hDevices, h4D]
            simp only [VideoModel.device]
            rw [h3D, h2D, h0D]
          · rw [VideoModel.announceStart_videoDevices, h4V]
            simp only [VideoModel.device]
            rw [h3V, h2V, h0V]
          · rw [VideoModel.announceStart_next, h4N]
            simp only [VideoModel.device]
            rw [h3N, ← h0N]
            exact h2N

theorem VideoModel.stoppedDecoding_frame (m m1 : VideoModel) (id shmPath : String)
    (hs : VideoModel.stoppedDecoding m id shmPath = some m1) :
    m1.m_hDevices = (QHash.index m.m_hDevices id).1 ∧ m1.videoDevices = m.videoDevices ∧
      m.next ≤ m1.next := by
  unfold VideoModel.stoppedDecoding at hs
  cases hst : VideoModel.stopRendering m id with
  | none => simp [hst] at hs
  | some m2 =>
    obtain ⟨h2D, h2V, h2N⟩ := VideoModel.stopRendering_frame m m2 id hst
    simp only [hst] at hs
    cases hem : VideoModel.emitOnDevice (VideoModel.device m2 id).1
        (VideoModel.device m2 id).2
        (fun d => Signal.renderingStopped d (QHash.value m.m_lRenderers id)) with
    | none => simp [hem] at hs
    | some m3 =>
      obtain ⟨h3D, h3V, h3N⟩ := VideoModel.emitOnDevice_frame _ m3 _ _ hem
      simp only [hem, Option.some.injEq] at hs
      rw [← hs]
      refine ⟨?_, ?_, ?_⟩
      · simp only [VideoModel.dropRenderer, VideoModel.announceStop_m_hDevices]
        rw [h3D]
        simp only [VideoModel.device]
        rw [h2D]
      · simp only [VideoModel.dropRenderer, VideoModel.announceStop_videoDevices]
        rw [h3V]
        simp only [VideoModel.device]
        rw [h2V]
      · simp only [VideoModel.dropRenderer, VideoModel.announceStop_next]
        rw [h3N]
        simp only [VideoModel.device]
        rw [h2N]

theorem VideoModel.collect_keys_nodup (L : List String) (s : VideoModel) (h : QHash)
    (hnd : (QHash.keys h).Nodup) :
    (QHash.keys (L.foldl VideoModel.collectDevice (s, h)).2).Nodup := by
  induction L generalizing s h with
  | nil => exact hnd
  | cons n L ih =>
    rw [List.foldl_cons]
    cases hv : QHash.value s.m_hDevices n with
    | none =>
      rw [VideoModel.collectDevice_none s h n hv]
      exact ih { s with
          m_hDevices := (QHash.index s.m_hDevices n).1
          videoDevices := Heap.store s.videoDevices s.next { id := n }
          next := s.next + 1 } _ (QHash.keys_set_nodup _ _ _ hnd)
    | some a =>
      rw [VideoModel.collectDevice_some s h n a hv]
      exact ih { s with m_hDevices := (QHash.index s.m_hDevices n).1 } _ (QHash.keys_set_nodup _ _ _ hnd)

theorem VideoModel.collect_all_some (L : List String) (s : VideoModel) (h : QHash)
    (hall : ∀ e ∈ h, ∃ a, e.2 = some a) :
    ∀ e ∈ (L.foldl VideoModel.collectDevice (s, h)).2, ∃ a, e.2 = some a := by
  induction L generalizing s h with
  | nil => exact hall
  | cons n L ih =>
    rw [List.foldl_cons]
    cases hv : QHash.value s.m_hDevices n with
    | none =>
      rw [VideoModel.collectDevice_none s h n hv]
      refine ih { s with
          m_hDevices := (QHash.index s.m_hDevices n).1
          videoDevices := Heap.store s.videoDevices s.next { id := n }
          next := s.next + 1 } _ ?_
      intro e he
      rcases QHash.mem_set _ _ _ _ he with h1 | h1
      · exact hall e h1
      · exact ⟨s.next, by rw [h1]⟩
    | some a =>
      rw [VideoModel.collectDevice_some s h n a hv]
      refine ih { s with m_hDevices := (QHash.index s.m_hDevices n).1 } _ ?_
      intro e he
      rcases QHash.mem_set _ _ _ _ he with h1 | h1
      · exact hall e h1
      · exact ⟨a, by rw [h1]⟩

theorem VideoModel.collect_fresh (L : List String) (s : VideoModel) (h : QHash)
    (hf : ∀ a d, Heap.deref s.videoDevices a = some d → a < s.next) :
    ∀ a d, Heap.deref (L.foldl VideoModel.collectDevice (s, h)).1.videoDevices a = some d →
      a < (L.foldl VideoModel.collectDevice (s, h)).1.next := by
  induction L generalizing s h with
  | nil => exact hf
  | cons n L ih =>
    rw [List.foldl_cons]
    cases hv : QHash.value s.m_hDevices n with
    | none =>
      rw [VideoModel.collectDevice_none s h n hv]
      refine ih { s with
          m_hDevices := (QHash.index s.m_hDevices n).1
          videoDevices := Heap.store s.videoDevices s.next { id := n }
          next := s.next + 1 } _ ?_
      intro a d hd
      by_cases ha : a = s.next
      · rw [ha]; exact Nat.lt_succ_self _
      · have hd1 : Heap.deref s.videoDevices a = some d := by
          rw [← Heap.deref_store_ne s.videoDevices s.next a { id := n } ha]
          exact hd
        exact Nat.lt_succ_of_lt (hf a d hd1)
    | some b =>
      rw [VideoModel.collectDevice_some s h n b hv]
      exact ih { s with m_hDevices := (QHash.index s.m_hDevices n).1 } _ hf

theorem VideoModel.collect_new_entries (L : List String) (b : Nat) (s : VideoModel) (h : QHash)
    (hold : ∀ k a, QHash.value s.m_hDevices k = some a → a < b)
    (hinv : ∀ k a, (k, some a) ∈ h → b ≤ a →
      a < s.next ∧ Heap.deref s.videoDevices a = some { id := k }) :
    ∀ k a, (k, some a) ∈ (L.foldl VideoModel.collectDevice (s, h)).2 → b ≤ a →
      a < (L.foldl VideoModel.collectDevice (s, h)).1.next ∧
      Heap.deref (L.foldl VideoModel.collectDevice (s, h)).1.videoDevices a =
        some { id := k } := by
  induction L generalizing s h with
  | nil => exact hinv
  | cons n L ih =>
    rw [List.foldl_cons]
    cases hv : QHash.value s.m_hDevices n with
    | none =>
      rw [VideoModel.collectDevice_none s h n hv]
      refine ih { s with
          m_hDevices := (QHash.index s.m_hDevices n).1
          videoDevices := Heap.store s.videoDevices s.next { id := n }
          next := s.next + 1 } _ ?_ ?_
      · intro k a hk
        rw [QHash.value_index] at hk
        exact hold k a hk
      · intro k a hk hba
        rcases QHash.mem_set _ _ _ _ hk with h1 | h1
        · obtain ⟨h2, h3⟩ := hinv k a h1 hba
          refine ⟨Nat.lt_succ_of_lt h2, ?_⟩
          rw [Heap.deref_store_ne _ _ _ _ (Nat.ne_of_lt h2)]
          exact h3
        · have hk1 : k = n := (Prod.mk.inj h1).1
          have ha1 : a = s.next := Option.some.inj (Prod.mk.inj h1).2
          rw [hk1, ha1]
          exact ⟨Nat.lt_succ_self _, Heap.deref_store_self _ _ _⟩
    | some c =>
      rw [VideoModel.collectDevice_some s h n c hv]
      refine ih { s with m_hDevices := (QHash.index s.m_hDevices n).1 } _ ?_ ?_
      · intro k a hk
        rw [QHash.value_index] at hk
        exact hold k a hk
      · intro k a hk hba
        rcases QHash.mem_set _ _ _ _ hk with h1 | h1
        · exact hinv k a h1 hba
        · have ha1 : a = c := Option.some.inj (Prod.mk.inj h1).2
          exact absurd (hold n c hv) (Nat.not_lt.mpr (ha1 ▸ hba))

theorem VideoModel.devices_preserves_inv (env : Env) (m : VideoModel)
    (hinv : VideoModel.DeviceMapInv m) (hne : "" ∉ env.deviceList) :
    ∃ m1, VideoModel.devices env m = some (m1, QHash.values m1.m_hDevices) ∧
      VideoModel.DeviceMapInv m1 ∧
      (env.deviceList.length = QHash.size m.m_hDevices → m1 = m) ∧
      (env.deviceList.length ≠ QHash.size m.m_hDevices →
        (∀ e ∈ m1.m_hDevices, ∃ a, e.2 = some a) ∧
        (∀ k, k ∈ QHash.keys m1.m_hDevices → k ∈ env.deviceList)) := by
  by_cases hsize : env.deviceList.length = QHash.size m.m_hDevices
  · exact ⟨m, by simp [VideoModel.devices, hsize], hinv, fun _ => rfl,
      fun h => absurd hsize h⟩
  obtain ⟨hk, hu, hl, hf⟩ := hinv
  have hnd := QHash.nodup_somes m.m_hDevices hk hu
  have hentryOf : ∀ a, some a ∈ QHash.values m.m_hDevices → ∃ k, (k, some a) ∈ m.m_hDevices := by
    intro a ha
    obtain ⟨e, he, hev⟩ := List.mem_map.mp ha
    obtain ⟨k, v⟩ := e
    simp only at hev
    subst hev
    exact ⟨k, he⟩
  have hlive : ∀ a, some a ∈ QHash.values m.m_hDevices →
      ∃ d, Heap.deref m.videoDevices a = some d := by
    intro a ha
    obtain ⟨k, hk1⟩ := hentryOf a ha
    obtain ⟨d, hd, _⟩ := hl k a hk1
    exact ⟨d, hd⟩
  have hbelow : ∀ a, some a ∈ QHash.values m.m_hDevices → a < m.next := by
    intro a ha
    obtain ⟨d, hd⟩ := hlive a ha
    exact hf a d hd
  have hold : ∀ k a, QHash.value m.m_hDevices k = some a → a < m.next :=
    fun k a hv => hbelow a (QHash.mem_values_of_value _ _ _ hv)
  obtain ⟨ex, hex, hexnone⟩ := VideoModel.collect_devices_eq env.deviceList m []
  obtain ⟨hfm, hmemv⟩ := QHash.values_append_nones m.m_hDevices ex hexnone
  obtain ⟨heap1, hdel, hderef⟩ := VideoModel.deleteStale_spec
    (env.deviceList.foldl VideoModel.collectDevice (m, [])).2
    (QHash.values (env.deviceList.foldl VideoModel.collectDevice (m, [])).1.m_hDevices)
    (env.deviceList.foldl VideoModel.collectDevice (m, [])).1.videoDevices
    (by rw [hex, hfm]; exact hnd)
    (by
      intro a ha
      rw [hex] at ha
      have ha1 := hmemv a ha
      rw [VideoModel.collect_heap_below _ _ _ _ (hbelow a ha1)]
      exact hlive a ha1)
  have hentry : ∀ k a, (k, some a) ∈ (env.deviceList.foldl VideoModel.collectDevice (m, [])).2 →
      (k ∈ env.deviceList ∧ QHash.value m.m_hDevices k = some a) ∨ m.next ≤ a := by
    intro k a hk1
    rcases VideoModel.collect_entries _ _ _ _ _ hk1 with h1 | h1 | h1
    · simp at h1
    · exact Or.inl h1
    · exact Or.inr h1
  have hnew := VideoModel.collect_new_entries env.deviceList m.next m [] hold
    (by intro k a hk1; simp at hk1)
  have hnotdel : ∀ a, m.next ≤ a → Heap.deref heap1 a =
      Heap.deref (env.deviceList.foldl VideoModel.collectDevice (m, [])).1.videoDevices a := by
    intro a ha
    rw [hderef a, if_neg]
    intro hcon
    have hin := hcon.1
    rw [hex] at hin
    exact absurd (hbelow a (hmemv a hin)) (Nat.not_lt.mpr ha)
  have hu1 : ∀ k n a,
      (k, some a) ∈ (env.deviceList.foldl VideoModel.collectDevice (m, [])).2 →
      (n, some a) ∈ (env.deviceList.foldl VideoModel.collectDevice (m, [])).2 → k = n := by
    intro k n a h1 h2
    rcases hentry k a h1 with ⟨_, hkv⟩ | hge
    · rcases hentry n a h2 with ⟨_, hnv⟩ | hge2
      · exact hu k n a (QHash.value_mem _ _ _ hkv) (QHash.value_mem _ _ _ hnv)
      · exact absurd (hold k a hkv) (Nat.not_lt.mpr hge2)
    · have h3 := (hnew k a h1 hge).2
      have h4 := (hnew n a h2 hge).2
      exact VideoDevice.mk.inj (Option.some.inj (h3.symm.trans h4))
  unfold VideoModel.devices
  rw [if_neg hsize, hdel]
  refine ⟨_, rfl, ⟨?_, hu1, ?_, ?_⟩, fun h => absurd h hsize, fun _ => ⟨?_, ?_⟩⟩
  · exact VideoModel.collect_keys_nodup env.deviceList m [] (by simp [QHash.keys])
  · intro k a h1
    show ∃ d, Heap.deref heap1 a = some d ∧ d.id = k
    rcases hentry k a h1 with ⟨hkL, hkv⟩ | hge
    · have hkne : k ≠ "" := fun e => hne (e ▸ hkL)
      have hkm := QHash.key_mem _ _ _ h1
      have hkey := hu1 _ k a hkm h1
      obtain ⟨d, hd, hid⟩ := hl k a (QHash.value_mem _ _ _ hkv)
      refine ⟨d, ?_, hid⟩
      rw [hderef a, if_neg (fun hc => hkne (hkey ▸ hc.2)),
        VideoModel.collect_heap_below _ _ _ _ (hold k a hkv)]
      exact hd
    · exact ⟨{ id := k }, by rw [hnotdel a hge]; exact (hnew k a h1 hge).2, rfl⟩
  · intro a d hd
    show a < (env.deviceList.foldl VideoModel.collectDevice (m, [])).1.next
    have hd1 : Heap.deref heap1 a = some d := hd
    rw [hderef a] at hd1
    split at hd1
    · exact absurd hd1 (by simp)
    · exact VideoModel.collect_fresh env.deviceList m [] hf a d hd1
  · exact VideoModel.collect_all_some env.deviceList m [] (by simp)
  · intro k hk1
    have hc : QHash.contains (env.deviceList.foldl VideoModel.collectDevice (m, [])).2 k
        = true := (QHash.contains_iff_mem_keys _ _).mpr hk1
    rw [VideoModel.collect_contains] at hc
    simpa [QHash.contains] using hc

theorem VideoModel.DeviceMapInv.init : VideoModel.DeviceMapInv VideoModel.init := by
  refine ⟨by simp [VideoModel.init, QHash.keys], ?_, ?_, ?_⟩
  · intro k n a h1
    simp [VideoModel.init] at h1
  · intro k a h1
    simp [VideoModel.init] at h1
  · intro a d hd
    simp [VideoModel.init, Heap.deref] at hd

theorem VideoModel.call_preserves_inv (m m1 : VideoModel) (c : VideoModel.Call)
    (hinv : VideoModel.DeviceMapInv m) (hc : c.namesNonEmpty)
    (hcall : VideoModel.call m c = some m1) : VideoModel.DeviceMapInv m1 := by
  cases c with
  | startedDecoding env id shmPath w h =>
    obtain ⟨hD, hV, hN⟩ := VideoModel.startedDecoding_frame env m m1 id shmPath w h hcall
    exact VideoModel.DeviceMapInv.of_index m m1 id hinv hD hV hN
  | stoppedDecoding id shmPath =>
    obtain ⟨hD, hV, hN⟩ := VideoModel.stoppedDecoding_frame m m1 id shmPath hcall
    exact VideoModel.DeviceMapInv.of_index m m1 id hinv hD hV hN
  | device id =>
    simp only [VideoModel.call, Option.some.injEq] at hcall
    rw [← hcall]
    exact VideoModel.DeviceMapInv.of_index m _ id hinv rfl rfl (Nat.le_refl _)
  | devices env =>
    obtain ⟨m2, hdev, hinv2, _, _⟩ := VideoModel.devices_preserves_inv env m hinv hc
    simp only [VideoModel.call, hdev, Option.some.injEq] at hcall
    rw [← hcall]
    exact hinv2

theorem VideoModel.run_preserves_inv (calls : List VideoModel.Call) (m0 m : VideoModel)
    (hinv : VideoModel.DeviceMapInv m0) (hnames : ∀ c ∈ calls, c.namesNonEmpty)
    (hrun : VideoModel.run m0 calls = some m) : VideoModel.DeviceMapInv m := by
  induction calls generalizing m0 with
  | nil =>
    simp only [VideoModel.run, Option.some.injEq] at hrun
    rw [← hrun]
    exact hinv
  | cons c cs ih =>
    simp only [VideoModel.run] at hrun
    cases hcall : VideoModel.call m0 c with
    | none => simp [hcall] at hrun
    | some m1 =>
      simp only [hcall] at hrun
      exact ih m1
        (VideoModel.call_preserves_inv m0 m1 c hinv (hnames c (by simp)) hcall)
        (fun c1 hc1 => hnames c1 (List.mem_cons_of_mem _ hc1)) hrun

/-- C12, counterexample. The registry `oneCamera` is reached from the empty registry by one
`devices()` call while the daemon lists `cam0`. On it the lookup `device("call-42")` adds the
key `call-42` to the device map, whose size grows from 1 to 2; and `devices()`, when the
daemon lists only `cam1`, returns the cached device named `cam0`, which is not in the
daemon's list. From the empty registry, after the lookup `device("call-42")`, the same
`devices()` call returns a null element. -/
theorem VideoModel.device_lookup_inserts_and_devices_returns_cached :
    VideoModel.run VideoModel.init [VideoModel.Call.devices Env.camera640x480] =
      some VideoModel.oneCamera ∧
    QHash.keys VideoModel.oneCamera.m_hDevices = ["cam0"] ∧
    QHash.keys (VideoModel.device VideoModel.oneCamera "call-42").1.m_hDevices =
      ["cam0", "call-42"] ∧
    QHash.size (VideoModel.device VideoModel.oneCamera "call-42").1.m_hDevices = 2 ∧
    VideoModel.devices Env.otherCamera VideoModel.oneCamera =
      some (VideoModel.oneCamera, [some 0]) ∧
    Heap.deref VideoModel.oneCamera.videoDevices 0 = some { id := "cam0" } ∧
    "cam0" ∉ Env.otherCamera.deviceList ∧
    ∃ m m1, VideoModel.run VideoModel.init [VideoModel.Call.device "call-42"] = some m ∧
      VideoModel.devices Env.otherCamera m = some (m1, [none]) := by
  refine ⟨by decide, by decide, by decide, by decide, by decide, by decide, by decide,
    _, _, rfl, rfl⟩

/-- C12, amended. In every state reachable from the empty registry by `startedDecoding`,
`stoppedDecoding`, `device(id)` and `devices()` calls whose daemon lists carry no empty
name: a lookup `device(id)` changes no lookup of the device map and none of its device
entries; `devices()` completes, every non-null element of the list it returns is a live
`VideoDevice`; when the daemon's list is as long as the map is large it leaves the registry
as it is and returns the map's values; and otherwise every element of the returned list is a
non-null live `VideoDevice` whose name occurs in the daemon's list. -/
theorem VideoModel.reachable_device_map (calls : List VideoModel.Call) (m : VideoModel)
    (hnames : ∀ c ∈ calls, c.namesNonEmpty)
    (hrun : VideoModel.run VideoModel.init calls = some m) :
    (∀ id k, QHash.value (VideoModel.device m id).1.m_hDevices k =
      QHash.value m.m_hDevices k) ∧
    (∀ id k a, (k, some a) ∈ (VideoModel.device m id).1.m_hDevices ↔
      (k, some a) ∈ m.m_hDevices) ∧
    (∀ env : Env, "" ∉ env.deviceList →
      ∃ m1 ret, VideoModel.devices env m = some (m1, ret) ∧
        (∀ a, some a ∈ ret → ∃ d, Heap.deref m1.videoDevices a = some d) ∧
        (env.deviceList.length = QHash.size m.m_hDevices →
          m1 = m ∧ ret = QHash.values m.m_hDevices) ∧
        (env.deviceList.length ≠ QHash.size m.m_hDevices →
          ∀ p ∈ ret, ∃ a d, p = some a ∧ Heap.deref m1.videoDevices a = some d ∧
            d.id ∈ env.deviceList)) := by
  have hinv := VideoModel.run_preserves_inv calls VideoModel.init m
    VideoModel.DeviceMapInv.init hnames hrun
  refine ⟨?_, ?_, ?_⟩
  · intro id k
    exact QHash.value_index _ _ _
  · intro id k a
    exact QHash.mem_index_some _ _ _ _
  · intro env hne
    obtain ⟨m1, hdev, hinv1, heq, hneq⟩ := VideoModel.devices_preserves_inv env m hinv hne
    have hmem : ∀ p, p ∈ QHash.values m1.m_hDevices → ∃ k, (k, p) ∈ m1.m_hDevices := by
      intro p hp
      obtain ⟨e, he, hev⟩ := List.mem_map.mp hp
      obtain ⟨k, v⟩ := e
      simp only at hev
      subst hev
      exact ⟨k, he⟩
    refine ⟨m1, _, hdev, ?_, ?_, ?_⟩
    · intro a ha
      obtain ⟨k, hk⟩ := hmem _ ha
      obtain ⟨d, hd, _⟩ := hinv1.2.2.1 k a hk
      exact ⟨d, hd⟩
    · intro hsize
      have h1 := heq hsize
      exact ⟨h1, by rw [h1]⟩
    · intro hsize p hp
      obtain ⟨hsome, hkeys⟩ := hneq hsize
      obtain ⟨k, hk⟩ := hmem p hp
      obtain ⟨a, ha⟩ := hsome (k, p) hk
      simp only at ha
      subst ha
      obtain ⟨d, hd, hid⟩ := hinv1.2.2.1 k a hk
      refine ⟨a, d, rfl, hd, ?_⟩
      rw [hid]
      exact hkeys k (List.mem_map.mpr ⟨(k, some a), hk, rfl⟩)

/-- C12, witness: the registry reached by one `devices()` call while the daemon lists
`cam0`. -/
theorem VideoModel.reachable_device_map_witness :
    (∀ id k, QHash.value (VideoModel.device VideoModel.oneCamera id).1.m_hDevices k =
      QHash.value VideoModel.oneCamera.m_hDevices k) ∧
    (∀ id k a, (k, some a) ∈ (VideoModel.device VideoModel.oneCamera id).1.m_hDevices ↔
      (k, some a) ∈ VideoModel.oneCamera.m_hDevices) ∧
    (∀ env : Env, "" ∉ env.deviceList →
      ∃ m1 ret, VideoModel.devices env VideoModel.oneCamera = some (m1, ret) ∧
        (∀ a, some a ∈ ret → ∃ d, Heap.deref m1.videoDevices a = some d) ∧
        (env.deviceList.length = QHash.size VideoModel.oneCamera.m_hDevices →
          m1 = VideoModel.oneCamera ∧ ret = QHash.values VideoModel.oneCamera.m_hDevices) ∧
        (env.deviceList.length ≠ QHash.size VideoModel.oneCamera.m_hDevices →
          ∀ p ∈ ret, ∃ a d, p = some a ∧ Heap.deref m1.videoDevices a = some d ∧
            d.id ∈ env.deviceList)) :=
  VideoModel.reachable_device_map [VideoModel.Call.devices Env.camera640x480]
    VideoModel.oneCamera
    (by
      intro c hc
      rw [List.mem_singleton] at hc
      subst hc
      show "" ∉ ["cam0"]
      decide)
    (by decide)

end RingLrc
